import Mathlib

set_option maxRecDepth 100000

/-! Shallow embedding of the segregated block-pool allocator from
`src/pool_alloc.h` (header and implementation).  The heap is modelled as a
byte image `Nat → Nat` addressed by byte offset from the heap base; pointers
returned by the allocator are modelled as payload byte offsets, `NULL` as
`none`.  Machine-integer stores truncate exactly where the C code stores into
`uint8_t` / `uint16_t` fields. -/

/-- Heap size in bytes, `HEAP_SIZE` in pool_alloc.h. -/
def HEAP_SIZE : Nat := 65536

/-- Metadata header length in bytes, `METADATA_LENGTH` in pool_alloc.h. -/
def METADATA_LENGTH : Nat := 3

/-- Maximum number of block sizes, `MAX_BLOCK_SIZE_COUNT` in pool_alloc.h. -/
def MAX_BLOCK_SIZE_COUNT : Nat := 255

/-- Pointwise update of a function modelling an array or a byte image. -/
def updFn (f : Nat → Nat) (k v : Nat) : Nat → Nat :=
  fun o => if o = k then v else f o

/-- Store the 16-bit `next_freelist_offset` field of a packed `metadata`
header at byte offset `idx`: two bytes, low byte first (host little endian,
unobservable per the spec since headers are never persisted). -/
def writeNextBytes (h : Nat → Nat) (idx v : Nat) : Nat → Nat :=
  updFn (updFn h idx (v % 256)) (idx + 1) (v / 256 % 256)

/-- Store a full 3-byte packed `metadata` header at byte offset `idx`:
`next_freelist_offset = v` and `partition_number = p`. -/
def writeHeader (h : Nat → Nat) (idx v p : Nat) : Nat → Nat :=
  updFn (writeNextBytes h idx v) (idx + 2) (p % 256)

/-- Read the 16-bit `next_freelist_offset` field of the header at byte
offset `idx`. -/
def readNext (h : Nat → Nat) (idx : Nat) : Nat :=
  h idx % 256 + 256 * (h (idx + 1) % 256)

/-- Read the 8-bit `partition_number` field of the header at byte offset
`idx`. -/
def readPart (h : Nat → Nat) (idx : Nat) : Nat :=
  h (idx + 2) % 256

/-- The value of the low 32 bits of a machine word when read through an
`int` pointer, as `qsort_cmp` in pool_alloc.c does on a little-endian
platform with 32-bit `int`. -/
def int32val (x : Nat) : Int :=
  if x % 4294967296 < 2147483648 then (x % 4294967296 : Int)
  else (x % 4294967296 : Int) - 4294967296

/-- Comparator `qsort_cmp` from pool_alloc.c: `return (*(int*) b - *(int*) a);`,
reading each `size_t` element through an `int` pointer. -/
def qsort_cmp (a b : Nat) : Int :=
  int32val b - int32val a

/-- The sort performed by `pool_init` via libc `qsort` with comparator
`qsort_cmp`.  `qsort`'s contract yields a permutation of the input ordered
by the comparator; insertion sort with the same comparator realizes that
contract deterministically. -/
def sortDesc (l : List Nat) : List Nat :=
  List.insertionSort (fun a b => qsort_cmp a b ≤ 0) l

/-- The header-writing inner loop of `pool_init`
(`for idx = partition_start; idx < upper_bound; idx += block_size + 3`):
writes a header at each stride-aligned offset, linking it to the payload of
the next block when that lies inside the partition and fits in 16 bits.
`fuel` bounds the iteration count; `HEAP_SIZE` is always enough fuel since
the stride is at least 4. -/
def insertMetadata : Nat → (Nat → Nat) → Nat → Nat → Nat → Nat → Nat → Nat
  | 0, heap, _, _, _, _ => heap
  | fuel + 1, heap, idx, upper, bs, i =>
    if idx < upper then
      insertMetadata fuel
        (writeHeader heap idx
          (if idx + bs + 2 * METADATA_LENGTH < upper ∧
              idx + bs + 2 * METADATA_LENGTH ≤ 65535
           then idx + bs + 2 * METADATA_LENGTH else 0) i)
        (idx + (bs + METADATA_LENGTH)) upper bs i
    else heap

/-- The partition-layout loop of `pool_init`: processes classes
`i = count - left .. count - 1`, validating each size, computing the
partition size `max(stride, equalShare - equalShare % stride)`, writing the
free-list head and the block headers, and advancing the cursor.  Returns
the success flag together with the (possibly partially) updated heap and
free-list head array: like the C code, a failure detected mid-loop leaves
the partitions already laid out in place. -/
def initLoop (count : Nat) (sbs : Nat → Nat) :
    Nat → (Nat → Nat) → (Nat → Nat) → Nat → Bool × (Nat → Nat) × (Nat → Nat)
  | 0, heap, heads, _ => (true, heap, heads)
  | left + 1, heap, heads, cursor =>
    let i := count - (left + 1)
    let bs := sbs i
    if bs = 0 ∨ HEAP_SIZE - METADATA_LENGTH < bs then (false, heap, heads)
    else
      let remaining := HEAP_SIZE - cursor
      let psize := max (bs + METADATA_LENGTH)
        (remaining / (left + 1) - remaining / (left + 1) % (bs + METADATA_LENGTH))
      if remaining < psize then (false, heap, heads)
      else
        initLoop count sbs left
          (insertMetadata HEAP_SIZE heap cursor (cursor + psize) bs i)
          (updFn heads i ((cursor + METADATA_LENGTH) % 65536))
          (cursor + psize)

/-- The allocator's static state: the heap byte image `g_pool_heap`, the
per-class free-list heads `freelist_head_arr` (uint16 each), the sorted
size array `sorted_block_size_arr`, and the class count
`block_size_count_var`. -/
structure PoolState where
  heap : Nat → Nat
  freelist_head_arr : Nat → Nat
  sorted_block_size_arr : Nat → Nat
  block_size_count_var : Nat

/-- The zero-initialized static state before any `pool_init` call. -/
def PoolState.initial : PoolState :=
  { heap := fun _ => 0
    freelist_head_arr := fun _ => 0
    sorted_block_size_arr := fun _ => 0
    block_size_count_var := 0 }

/-- The sorted-size-array function written by `pool_init`: the first
`count` entries are the descending-sorted sizes, entries beyond keep
whatever the static array held before (the C loop only overwrites the
first `count` cells). -/
def initSbs (sizes : List Nat) (st : PoolState) : Nat → Nat :=
  fun j =>
    if j < sizes.length then (sortDesc sizes).getD j 0
    else st.sorted_block_size_arr j

/-- Function `pool_init` from pool_alloc.c.  The size list models the non-null
`block_sizes` array and its length the `block_size_count` argument.  The
count, the sorted size array, and whatever the layout loop wrote before a
mid-loop failure all persist in the returned state, exactly as the C
statics do. -/
def pool_init (sizes : List Nat) (st : PoolState) : Bool × PoolState :=
  if sizes.length = 0 ∨ MAX_BLOCK_SIZE_COUNT < sizes.length then (false, st)
  else
    let r := initLoop sizes.length (initSbs sizes st) sizes.length
      st.heap st.freelist_head_arr 0
    (r.1,
      { heap := r.2.1
        freelist_head_arr := r.2.2
        sorted_block_size_arr := initSbs sizes st
        block_size_count_var := sizes.length })

/-- The class-selection loop of `pool_malloc`: scan `i = k - 1` down to `0`
and pick the first class whose free-list head is nonzero and whose block
size is at least `n`. -/
def findPartition (heads sbs : Nat → Nat) (n : Nat) : Nat → Option Nat
  | 0 => none
  | i + 1 => if heads i ≠ 0 ∧ n ≤ sbs i then some i else findPartition heads sbs n i

/-- Function `pool_malloc` from pool_alloc.c.  The result offset models the returned
payload pointer as a byte offset from the heap base; `none` models `NULL`. -/
def pool_malloc (st : PoolState) (n : Nat) : Option Nat × PoolState :=
  if n = 0 ∨ st.sorted_block_size_arr 0 < n then (none, st)
  else
    match findPartition st.freelist_head_arr st.sorted_block_size_arr n
        st.block_size_count_var with
    | none => (none, st)
    | some i =>
      let newHeads := updFn st.freelist_head_arr i
        (readNext st.heap (st.freelist_head_arr i - METADATA_LENGTH))
      (some (st.freelist_head_arr i), { st with freelist_head_arr := newHeads })

/-- Function `pool_free` from pool_alloc.c.  `ptr` is the payload byte offset of the
freed block: the partition number is read from the header 3 bytes before
the payload, the old head is stored into the header's next field, and the
head becomes the payload offset (stored as `uint16_t`). -/
def pool_free (st : PoolState) (ptr : Nat) : PoolState :=
  { st with
    heap := writeNextBytes st.heap (ptr - METADATA_LENGTH)
      (st.freelist_head_arr (readPart st.heap (ptr - METADATA_LENGTH)))
    freelist_head_arr :=
      updFn st.freelist_head_arr (readPart st.heap (ptr - METADATA_LENGTH))
        (ptr % 65536) }

/-- The free list threaded through the heap image: `chainIs h off l` states
that starting from head offset `off` and repeatedly following the
`next_freelist_offset` field of the header 3 bytes before each payload
offset enumerates exactly the payload offsets in `l`, ending at the 0
sentinel. -/
def chainIs (h : Nat → Nat) : Nat → List Nat → Prop
  | off, [] => off = 0
  | off, q :: l => off = q ∧ chainIs h (readNext h (q - METADATA_LENGTH)) l

/-- The payload offsets of the `n` blocks of a partition starting at byte
offset `start` with stride `T`. -/
def classBlocks (start T : Nat) : Nat → List Nat
  | 0 => []
  | n + 1 => (start + METADATA_LENGTH) :: classBlocks (start + T) T n

/-- The layout recurrence of spec section 4.3 over the sorted size array:
`left` classes remain, the next one being class `count - left`; for each
class in turn, stride `T = s + 3`, equal share `E = remaining / left`,
partition bytes `P = max(T, E - E % T)`, failing when `P` exceeds the
remaining heap bytes.  Returns per class the partition start offset, the
stride, and the number of blocks laid out. -/
def specLayout (count : Nat) (sbs : Nat → Nat) :
    Nat → Nat → Option (List (Nat × Nat × Nat))
  | 0, _ => some []
  | left + 1, cursor =>
    let T := sbs (count - (left + 1)) + METADATA_LENGTH
    let remaining := HEAP_SIZE - cursor
    let E := remaining / (left + 1)
    let P := max T (E - E % T)
    if remaining < P then none
    else
      match specLayout count sbs left (cursor + P) with
      | none => none
      | some l => some ((cursor, T, P / T) :: l)

/-- The payload offsets laid out at init for class `i`, per the layout data
`L` produced by `specLayout`. -/
def blocksOf (L : List (Nat × Nat × Nat)) (i : Nat) : List Nat :=
  match L.get? i with
  | some e => classBlocks e.1 e.2.1 e.2.2
  | none => []

/-- Repeatedly call `pool_malloc st n` until it returns `NULL` or `fuel`
runs out, counting the successful calls and returning the final state. -/
def mallocRun (st : PoolState) (n : Nat) : Nat → Nat × PoolState
  | 0 => (0, st)
  | fuel + 1 =>
    match pool_malloc st n with
    | (none, st2) => (0, st2)
    | (some _, st2) =>
      let r := mallocRun st2 n fuel
      (r.1 + 1, r.2)

/-- States reachable from `st0` by `pool_malloc` / `pool_free` calls that
respect the contracts: every freed pointer was previously returned by a
successful `pool_malloc` and has not been freed since.  `held` is the
multiset of payload offsets currently held by callers. -/
inductive Reach (st0 : PoolState) : PoolState → Multiset Nat → Prop where
  | refl : Reach st0 st0 0
  | step_malloc_some {st held n off} : Reach st0 st held →
      (pool_malloc st n).1 = some off →
      Reach st0 (pool_malloc st n).2 (off ::ₘ held)
  | step_malloc_none {st held n} : Reach st0 st held →
      (pool_malloc st n).1 = none →
      Reach st0 (pool_malloc st n).2 held
  | step_free {st held p} : Reach st0 st held → p ∈ held →
      Reach st0 (pool_free st p) (held.erase p)

/-! Basic lemmas about the byte image and array model. -/

theorem updFn_self (f : Nat → Nat) (k v : Nat) : updFn f k v k = v := by
  simp [updFn]

theorem updFn_other (f : Nat → Nat) (k v o : Nat) (h : o ≠ k) : updFn f k v o = f o := by
  simp [updFn, h]

theorem writeNextBytes_other (h : Nat → Nat) (idx v o : Nat)
    (h1 : o ≠ idx) (h2 : o ≠ idx + 1) : writeNextBytes h idx v o = h o := by
  simp [writeNextBytes, updFn, h1, h2]

theorem writeHeader_other (h : Nat → Nat) (idx v p o : Nat)
    (h1 : o ≠ idx) (h2 : o ≠ idx + 1) (h3 : o ≠ idx + 2) :
    writeHeader h idx v p o = h o := by
  simp [writeHeader, writeNextBytes, updFn, h1, h2, h3]

theorem readNext_writeNextBytes_self (h : Nat → Nat) (idx v : Nat) (hv : v < 65536) :
    readNext (writeNextBytes h idx v) idx = v := by
  simp [readNext, writeNextBytes, updFn]
  omega

theorem readNext_writeHeader_self (h : Nat → Nat) (idx v p : Nat) (hv : v < 65536) :
    readNext (writeHeader h idx v p) idx = v := by
  simp [readNext, writeHeader, writeNextBytes, updFn]
  omega

theorem readPart_writeHeader_self (h : Nat → Nat) (idx v p : Nat) (hp : p < 256) :
    readPart (writeHeader h idx v p) idx = p := by
  simp [readPart, writeHeader, writeNextBytes, updFn]
  omega

theorem readNext_congr (h h2 : Nat → Nat) (idx : Nat)
    (e1 : h2 idx = h idx) (e2 : h2 (idx + 1) = h (idx + 1)) :
    readNext h2 idx = readNext h idx := by
  simp [readNext, e1, e2]

theorem readPart_congr (h h2 : Nat → Nat) (idx : Nat)
    (e : h2 (idx + 2) = h (idx + 2)) : readPart h2 idx = readPart h idx := by
  simp [readPart, e]

/-! The class-selection loop, characterized. -/

theorem findPartition_none_iff (heads sbs : Nat → Nat) (n : Nat) : ∀ k,
    findPartition heads sbs n k = none ↔ ∀ j < k, heads j = 0 ∨ sbs j < n := by
  intro k
  induction k with
  | zero => simp [findPartition]
  | succ i ih =>
    simp only [findPartition]
    by_cases hc : heads i ≠ 0 ∧ n ≤ sbs i
    · simp only [if_pos hc]
      constructor
      · intro h; exact absurd h (by simp)
      · intro h
        rcases h i (by omega) with h0 | hlt
        · exact absurd h0 hc.1
        · omega
    · simp only [if_neg hc, ih]
      constructor
      · intro h j hj
        rcases Nat.lt_succ_iff_lt_or_eq.mp hj with hj' | rfl
        · exact h j hj'
        · by_cases h0 : heads j = 0
          · exact Or.inl h0
          · right
            by_contra hge
            exact hc ⟨h0, by omega⟩
      · intro h j hj; exact h j (by omega)

theorem findPartition_some_iff (heads sbs : Nat → Nat) (n : Nat) : ∀ k i,
    (findPartition heads sbs n k = some i ↔
      i < k ∧ heads i ≠ 0 ∧ n ≤ sbs i ∧
        ∀ j, i < j → j < k → heads j = 0 ∨ sbs j < n) := by
  intro k
  induction k with
  | zero => simp [findPartition]
  | succ m ih =>
    intro i
    simp only [findPartition]
    by_cases hc : heads m ≠ 0 ∧ n ≤ sbs m
    · simp only [if_pos hc]
      constructor
      · rintro h
        injection h with h
        subst h
        exact ⟨by omega, hc.1, hc.2, fun j hj1 hj2 => by omega⟩
      · rintro ⟨hik, h0, hn, hmax⟩
        rcases Nat.lt_succ_iff_lt_or_eq.mp hik with him | rfl
        · rcases hmax m him (by omega) with h | h
          · exact absurd h hc.1
          · omega
        · rfl
    · simp only [if_neg hc, ih]
      constructor
      · rintro ⟨hik, h0, hn, hmax⟩
        refine ⟨by omega, h0, hn, fun j hj1 hj2 => ?_⟩
        rcases Nat.lt_succ_iff_lt_or_eq.mp hj2 with hj | rfl
        · exact hmax j hj1 hj
        · by_cases hz : heads j = 0
          · exact Or.inl hz
          · right
            by_contra hge
            exact hc ⟨hz, by omega⟩
      · rintro ⟨hik, h0, hn, hmax⟩
        have him : i ≠ m := by
          rintro rfl
          exact hc ⟨h0, hn⟩
        exact ⟨by omega, h0, hn, fun j hj1 hj2 => hmax j hj1 (by omega)⟩

/-! Case-split lemmas for `pool_malloc`. -/

theorem pool_malloc_guard (st : PoolState) (n : Nat)
    (h : n = 0 ∨ st.sorted_block_size_arr 0 < n) :
    pool_malloc st n = (none, st) := by
  simp [pool_malloc, h]

theorem pool_malloc_nofit (st : PoolState) (n : Nat)
    (hg : ¬(n = 0 ∨ st.sorted_block_size_arr 0 < n))
    (hf : findPartition st.freelist_head_arr st.sorted_block_size_arr n
      st.block_size_count_var = none) :
    pool_malloc st n = (none, st) := by
  simp [pool_malloc, hg, hf]

theorem pool_malloc_pop (st : PoolState) (n i : Nat)
    (hg : ¬(n = 0 ∨ st.sorted_block_size_arr 0 < n))
    (hf : findPartition st.freelist_head_arr st.sorted_block_size_arr n
      st.block_size_count_var = some i) :
    (pool_malloc st n).1 = some (st.freelist_head_arr i) ∧
    (pool_malloc st n).2.heap = st.heap ∧
    (pool_malloc st n).2.sorted_block_size_arr = st.sorted_block_size_arr ∧
    (pool_malloc st n).2.block_size_count_var = st.block_size_count_var ∧
    (pool_malloc st n).2.freelist_head_arr =
      updFn st.freelist_head_arr i
        (readNext st.heap (st.freelist_head_arr i - METADATA_LENGTH)) := by
  simp [pool_malloc, hg, hf]

theorem pool_malloc_initial_eq (n : Nat) :
    pool_malloc PoolState.initial n = (none, PoolState.initial) := by
  apply pool_malloc_guard
  rcases Nat.eq_zero_or_pos n with h | h
  · exact Or.inl h
  · exact Or.inr (by simpa [PoolState.initial] using h)

/-- Claim C9: calling pool_malloc(n) before any call to pool_init returns
NULL for every n, because the static state is zero-initialized:
sorted_block_size_arr[0] = 0 makes every n >= 1 fail the size guard, and
n = 0 is rejected directly.  No state changes either. -/
theorem C9_malloc_before_init_null (n : Nat) :
    pool_malloc PoolState.initial n = (none, PoolState.initial) :=
  pool_malloc_initial_eq n

/-- Claim C10: pool_malloc never writes any byte of the heap and never
touches the sorted size array or the class count; when it returns NULL the
state is unchanged; on success the only mutated cell is the selected
class's freelist_head_arr entry, set to the popped block's stored
next_freelist_offset, every other free-list head being left unchanged. -/
theorem C10_pool_malloc_frame (st : PoolState) (n : Nat) :
    (pool_malloc st n).2.heap = st.heap ∧
    (pool_malloc st n).2.sorted_block_size_arr = st.sorted_block_size_arr ∧
    (pool_malloc st n).2.block_size_count_var = st.block_size_count_var ∧
    ((pool_malloc st n).1 = none → (pool_malloc st n).2 = st) ∧
    ∀ off, (pool_malloc st n).1 = some off →
      ∃ i, findPartition st.freelist_head_arr st.sorted_block_size_arr n
          st.block_size_count_var = some i ∧
        off = st.freelist_head_arr i ∧
        (pool_malloc st n).2.freelist_head_arr i =
          readNext st.heap (st.freelist_head_arr i - METADATA_LENGTH) ∧
        ∀ j, j ≠ i → (pool_malloc st n).2.freelist_head_arr j =
          st.freelist_head_arr j := by
  by_cases hg : n = 0 ∨ st.sorted_block_size_arr 0 < n
  · rw [pool_malloc_guard st n hg]
    simp
  · cases hf : findPartition st.freelist_head_arr st.sorted_block_size_arr n
        st.block_size_count_var with
    | none =>
      rw [pool_malloc_nofit st n hg hf]
      simp
    | some i =>
      obtain ⟨e1, e2, e3, e4, e5⟩ := pool_malloc_pop st n i hg hf
      refine ⟨e2, e3, e4, ?_, ?_⟩
      · intro hnone
        rw [e1] at hnone
        exact absurd hnone (by simp)
      · intro off hoff
        rw [e1] at hoff
        injection hoff with hoff
        refine ⟨i, rfl, hoff.symm, ?_, ?_⟩
        · rw [e5, updFn_self]
        · intro j hj
          rw [e5, updFn_other _ _ _ _ hj]

/-- Witness for C10 at a concrete input: pool_malloc on the virgin state
returns NULL, and by the frame theorem the state is unchanged. -/
theorem C10_pool_malloc_frame_witness :
    (pool_malloc PoolState.initial 5).2 = PoolState.initial :=
  (C10_pool_malloc_frame PoolState.initial 5).2.2.2.1 (by decide)

/-- Claim C2: in any state whose size array is non-increasing on the live
classes (as after every successful pool_init), pool_malloc(n) returns NULL
iff n = 0, or n exceeds sorted_block_size_arr[0], or every class i with
sorted_block_size_arr[i] >= n has freelist_head_arr[i] = 0; otherwise it
returns the free-list head of the first class found scanning indices
count-1 down to 0 whose size fits and whose head is nonzero - the class of
smallest block size among the non-empty fitting ones - and unlinks that
block by setting the head to the block's stored next_freelist_offset. -/
theorem C2_pool_malloc_contract (st : PoolState) (n : Nat)
    (hs : ∀ i j, i ≤ j → j < st.block_size_count_var →
      st.sorted_block_size_arr j ≤ st.sorted_block_size_arr i) :
    ((pool_malloc st n).1 = none ↔
      n = 0 ∨ st.sorted_block_size_arr 0 < n ∨
        ∀ i < st.block_size_count_var, n ≤ st.sorted_block_size_arr i →
          st.freelist_head_arr i = 0) ∧
    ∀ off, (pool_malloc st n).1 = some off →
      ∃ i, i < st.block_size_count_var ∧ st.freelist_head_arr i ≠ 0 ∧
        n ≤ st.sorted_block_size_arr i ∧
        (∀ j, i < j → j < st.block_size_count_var →
          st.freelist_head_arr j = 0 ∨ st.sorted_block_size_arr j < n) ∧
        off = st.freelist_head_arr i ∧
        (pool_malloc st n).2.freelist_head_arr i =
          readNext st.heap (st.freelist_head_arr i - METADATA_LENGTH) ∧
        (∀ j, j ≠ i → (pool_malloc st n).2.freelist_head_arr j =
          st.freelist_head_arr j) ∧
        ∀ j < st.block_size_count_var, st.freelist_head_arr j ≠ 0 →
          n ≤ st.sorted_block_size_arr j →
          st.sorted_block_size_arr i ≤ st.sorted_block_size_arr j := by
  by_cases hg : n = 0 ∨ st.sorted_block_size_arr 0 < n
  · rw [pool_malloc_guard st n hg]
    constructor
    · simp only [true_iff]
      rcases hg with h | h
      · exact Or.inl h
      · exact Or.inr (Or.inl h)
    · intro off hoff
      exact absurd hoff (by simp)
  · cases hf : findPartition st.freelist_head_arr st.sorted_block_size_arr n
        st.block_size_count_var with
    | none =>
      rw [pool_malloc_nofit st n hg hf]
      have hall := (findPartition_none_iff st.freelist_head_arr
        st.sorted_block_size_arr n st.block_size_count_var).mp hf
      constructor
      · simp only [true_iff]
        refine Or.inr (Or.inr fun i hi hni => ?_)
        rcases hall i hi with h | h
        · exact h
        · omega
      · intro off hoff
        exact absurd hoff (by simp)
    | some i =>
      obtain ⟨e1, _, _, _, e5⟩ := pool_malloc_pop st n i hg hf
      obtain ⟨hik, h0, hn, hmax⟩ := (findPartition_some_iff st.freelist_head_arr
        st.sorted_block_size_arr n st.block_size_count_var i).mp hf
      constructor
      · rw [e1]
        constructor
        · intro h
          exact absurd h (by simp)
        · intro hcon
          exfalso
          rcases hcon with h | h | h
          · exact hg (Or.inl h)
          · exact hg (Or.inr h)
          · exact h0 (h i hik hn)
      · intro off hoff
        rw [e1] at hoff
        injection hoff with hoff
        refine ⟨i, hik, h0, hn, hmax, hoff.symm, ?_, ?_, ?_⟩
        · rw [e5, updFn_self]
        · intro j hj
          rw [e5, updFn_other _ _ _ _ hj]
        · intro j hjk hj0 hjn
          rcases Nat.lt_trichotomy i j with hij | rfl | hij
          · rcases hmax j hij hjk with h | h
            · exact absurd h hj0
            · omega
          · exact le_refl _
          · exact hs j i (by omega) hik

/-- A small concrete allocator state used by witnesses: one class of block
size 4 whose free list holds the single payload offset 3, over an all-zero
heap image. -/
def wState : PoolState :=
  { heap := fun _ => 0
    freelist_head_arr := fun j => if j = 0 then 3 else 0
    sorted_block_size_arr := fun _ => 4
    block_size_count_var := 1 }

/-- Witness for C2 at a concrete input: in `wState` a request of 0 bytes
yields NULL, by the left-to-right use of the contract. -/
theorem C2_pool_malloc_contract_witness :
    (pool_malloc wState 0).1 = none :=
  ((C2_pool_malloc_contract wState 0
    (fun _ _ _ _ => le_refl 4)).1).mpr (Or.inl rfl)

/-- Claim C6: for any allocator state and validly held in-heap pointer p,
pool_free(p) pushes p's block onto the front of its owning class's free
list, so an immediately following pool_malloc(m) for any m whose class
selection picks p's class (the partition number stored in p's header)
returns exactly p. -/
theorem C6_free_then_malloc_returns_same (st : PoolState) (p m : Nat)
    (hp : p < 65536) (hm0 : m ≠ 0)
    (hmtop : m ≤ st.sorted_block_size_arr 0)
    (hsel : findPartition (pool_free st p).freelist_head_arr
        st.sorted_block_size_arr m st.block_size_count_var =
      some (readPart st.heap (p - METADATA_LENGTH))) :
    (pool_malloc (pool_free st p) m).1 = some p := by
  have hg : ¬(m = 0 ∨ (pool_free st p).sorted_block_size_arr 0 < m) := by
    simp only [pool_free]
    omega
  obtain ⟨e1, _, _, _, _⟩ := pool_malloc_pop (pool_free st p) m
    (readPart st.heap (p - METADATA_LENGTH)) hg hsel
  rw [e1]
  have : (pool_free st p).freelist_head_arr
      (readPart st.heap (p - METADATA_LENGTH)) = p % 65536 := by
    simp [pool_free, updFn_self]
  rw [this, Nat.mod_eq_of_lt hp]

/-- Witness for C6 at a concrete input: in `wState` the block at payload
offset 3 belongs to class 0; freeing it and allocating 4 bytes returns
offset 3 again. -/
theorem C6_free_then_malloc_returns_same_witness :
    (pool_malloc (pool_free wState 3) 4).1 = some 3 :=
  C6_free_then_malloc_returns_same wState 3 4 (by decide) (by decide)
    (by decide) (by decide)

/-- Counterexample to claim C7 as stated: pool_init([65533, 0], 2) fails
(the second class has size 0, detected only after the first partition was
laid out), yet the subsequent pool_malloc(1) returns the payload offset 3
of the first class's block instead of NULL: the failed init left partial
state behind. -/
theorem C7_partial_state_counterexample :
    (pool_init [65533, 0] PoolState.initial).1 = false ∧
    (pool_malloc (pool_init [65533, 0] PoolState.initial).2 1).1 = some 3 := by
  constructor
  · decide
  · decide

/-- Claim C7 (amended): a pool_init that fails its initial argument guard
(zero count or count > 255) modifies no state at all, and from the virgin
zero-initialized state such a failed init leaves every subsequent
pool_malloc(n) returning NULL; but a pool_init that fails during size
validation or layout may leave partial state (the count, the sorted sizes
and the already-laid-out partitions' free lists) through which a
subsequent pool_malloc can return non-NULL. -/
theorem C7_init_guard_failure_atomic :
    (∀ sizes st, (sizes.length = 0 ∨ MAX_BLOCK_SIZE_COUNT < sizes.length) →
      pool_init sizes st = (false, st)) ∧
    ∀ sizes n, (sizes.length = 0 ∨ MAX_BLOCK_SIZE_COUNT < sizes.length) →
      (pool_malloc (pool_init sizes PoolState.initial).2 n).1 = none := by
  have h1 : ∀ sizes : List Nat, ∀ st,
      (sizes.length = 0 ∨ MAX_BLOCK_SIZE_COUNT < sizes.length) →
      pool_init sizes st = (false, st) := by
    intro sizes st h
    unfold pool_init
    rw [if_pos h]
  refine ⟨h1, fun sizes n h => ?_⟩
  rw [h1 sizes PoolState.initial h]
  rw [pool_malloc_initial_eq n]

/-- Witness for C7 (amended) at a concrete input: the empty size list
fails the guard, leaves the virgin state unchanged, and pool_malloc(7)
still returns NULL. -/
theorem C7_init_guard_failure_atomic_witness :
    pool_init [] PoolState.initial = (false, PoolState.initial) ∧
    (pool_malloc (pool_init [] PoolState.initial).2 7).1 = none :=
  ⟨C7_init_guard_failure_atomic.1 [] PoolState.initial (by decide),
   C7_init_guard_failure_atomic.2 [] 7 (by decide)⟩

/-! Layout facts. -/

/-- Chained geometry of a layout: each class's partition starts where the
previous one ended, strides are at least 4, every class has at least one
block, and the final cursor stays within the heap. -/
def layoutChained : Nat → List (Nat × Nat × Nat) → Prop
  | cursor, [] => cursor ≤ HEAP_SIZE
  | cursor, e :: l =>
    e.1 = cursor ∧ 4 ≤ e.2.1 ∧ 1 ≤ e.2.2 ∧ layoutChained (cursor + e.2.2 * e.2.1) l

theorem initLoop_true_sizes_valid (count : Nat) (sbs : Nat → Nat) :
    ∀ left heap heads cursor,
    (initLoop count sbs left heap heads cursor).1 = true →
    ∀ j, count - left ≤ j → j < count → 1 ≤ sbs j ∧ sbs j ≤ 65533 := by
  intro left
  induction left with
  | zero =>
    intro heap heads cursor _ j h1 h2
    omega
  | succ m ih =>
    intro heap heads cursor htrue j h1 h2
    simp only [initLoop] at htrue
    split at htrue
    · exact absurd htrue (by simp)
    · split at htrue
      · exact absurd htrue (by simp)
      · rename_i hbs hrem
        rcases Nat.lt_or_ge j (count - m) with hj | hj
        · have hje : j = count - (m + 1) := by omega
          subst hje
          simp only [HEAP_SIZE, METADATA_LENGTH] at hbs
          push_neg at hbs
          omega
        · exact ih _ _ _ htrue j hj h2

theorem specLayout_facts (count : Nat) (sbs : Nat → Nat) :
    ∀ left cursor L,
    (∀ j, count - left ≤ j → j < count → 1 ≤ sbs j) →
    left ≤ count →
    cursor ≤ HEAP_SIZE →
    specLayout count sbs left cursor = some L →
    L.length = left ∧ layoutChained cursor L ∧
    ∀ t, t < left → ∃ e, L.get? t = some e ∧
      e.2.1 = sbs (count - left + t) + METADATA_LENGTH := by
  intro left
  induction left with
  | zero =>
    intro cursor L _ _ hc hL
    simp only [specLayout, Option.some.injEq] at hL
    subst hL
    refine ⟨rfl, hc, fun t ht => by omega⟩
  | succ m ih =>
    intro cursor L hval hle hc hL
    simp only [specLayout] at hL
    split at hL
    · exact absurd hL (by simp)
    · rename_i hrem
      split at hL
      · exact absurd hL (by simp)
      · rename_i l hrec
        injection hL with hL
        subst hL
        set T := sbs (count - (m + 1)) + METADATA_LENGTH with hT
        set E := (HEAP_SIZE - cursor) / (m + 1) with hE
        set P := max T (E - E % T) with hP
        have hTpos : 0 < T := by simp [hT, METADATA_LENGTH]
        have hdvd : T ∣ P := by
          have hsub : E - E % T = T * (E / T) := by
            have := Nat.mod_add_div E T
            omega
          rcases le_total T (E - E % T) with hmx | hmx
          · rw [hP, max_eq_right hmx, hsub]
            exact Dvd.intro _ rfl
          · rw [hP, max_eq_left hmx]
        have hnT : P / T * T = P := Nat.div_mul_cancel hdvd
        have hTle : T ≤ P := le_max_left _ _
        have hn1 : 1 ≤ P / T := by
          rw [Nat.le_div_iff_mul_le hTpos]
          omega
        have hPrem : P ≤ HEAP_SIZE - cursor := by omega
        have hcc : cursor + P ≤ HEAP_SIZE := by omega
        have hvalm : ∀ j, count - m ≤ j → j < count → 1 ≤ sbs j :=
          fun j h1 h2 => hval j (by omega) h2
        obtain ⟨ihlen, ihchain, ihstr⟩ := ih (cursor + P) l hvalm (by omega) hcc hrec
        refine ⟨by simpa using ihlen, ?_, ?_⟩
        · refine ⟨rfl, ?_, hn1, ?_⟩
          · have h1 : 1 ≤ sbs (count - (m + 1)) :=
              hval _ (le_refl _) (by omega)
            simp only [hT, METADATA_LENGTH]
            omega
          · have : P / T * T = P := hnT
            simpa [Nat.mul_comm, this] using ihchain
        · intro t ht
          cases t with
          | zero =>
            exact ⟨(cursor, T, P / T), rfl, by simp⟩
          | succ u =>
            obtain ⟨e, he1, he2⟩ := ihstr u (by omega)
            refine ⟨e, by simpa using he1, ?_⟩
            rw [he2]
            have huu : count - m + u = count - (m + 1) + (u + 1) := by omega
            rw [huu]

theorem specLayout_congr (count : Nat) (f g : Nat → Nat)
    (hfg : ∀ j, j < count → f j = g j) :
    ∀ left cursor, left ≤ count →
    specLayout count f left cursor = specLayout count g left cursor := by
  intro left
  induction left with
  | zero => intro cursor _; rfl
  | succ m ih =>
    intro cursor hle
    have hi : count - (m + 1) < count := by omega
    simp only [specLayout, hfg _ hi, ih (cursor + _) (by omega)]

theorem initLoop_true_iff_spec (count : Nat) (sbs : Nat → Nat) :
    ∀ left heap heads cursor, left ≤ count →
    (∀ j, count - left ≤ j → j < count → 1 ≤ sbs j ∧ sbs j ≤ 65533) →
    ((initLoop count sbs left heap heads cursor).1 = true ↔
      (specLayout count sbs left cursor).isSome) := by
  intro left
  induction left with
  | zero =>
    intro heap heads cursor _ _
    simp [initLoop, specLayout]
  | succ m ih =>
    intro heap heads cursor hle hval
    have hi : count - (m + 1) < count := by omega
    have hv := hval (count - (m + 1)) (le_refl _) hi
    have hbs : ¬(sbs (count - (m + 1)) = 0 ∨
        HEAP_SIZE - METADATA_LENGTH < sbs (count - (m + 1))) := by
      simp only [HEAP_SIZE, METADATA_LENGTH]
      omega
    simp only [initLoop, specLayout, if_neg hbs]
    by_cases hrem : HEAP_SIZE - cursor <
        max (sbs (count - (m + 1)) + METADATA_LENGTH)
          ((HEAP_SIZE - cursor) / (m + 1) -
            (HEAP_SIZE - cursor) / (m + 1) % (sbs (count - (m + 1)) + METADATA_LENGTH))
    · rw [if_pos hrem, if_pos hrem]
      simp
    · rw [if_neg hrem, if_neg hrem]
      rw [ih _ _ _ (by omega) (fun j h1 h2 => hval j (by omega) h2)]
      cases hrec : specLayout count sbs m
          (cursor + max (sbs (count - (m + 1)) + METADATA_LENGTH)
            ((HEAP_SIZE - cursor) / (m + 1) -
              (HEAP_SIZE - cursor) / (m + 1) %
                (sbs (count - (m + 1)) + METADATA_LENGTH))) with
      | none => simp
      | some l => simp

theorem forall_getD_iff_forall_mem (l : List Nat) (P : Nat → Prop) :
    (∀ j, j < l.length → P (l.getD j 0)) ↔ ∀ s ∈ l, P s := by
  constructor
  · intro h s hs
    obtain ⟨j, hj, rfl⟩ := List.mem_iff_getElem.mp hs
    have := h j hj
    rwa [List.getD_eq_getElem l 0 hj] at this
  · intro h j hj
    rw [List.getD_eq_getElem l 0 hj]
    exact h _ (List.getElem_mem hj)

/-! Projections of `pool_init` past the argument guard. -/

theorem pool_init_flag (sizes : List Nat) (st : PoolState)
    (hg : ¬(sizes.length = 0 ∨ MAX_BLOCK_SIZE_COUNT < sizes.length)) :
    (pool_init sizes st).1 =
      (initLoop sizes.length (initSbs sizes st) sizes.length
        st.heap st.freelist_head_arr 0).1 := by
  unfold pool_init
  rw [if_neg hg]

theorem pool_init_heap (sizes : List Nat) (st : PoolState)
    (hg : ¬(sizes.length = 0 ∨ MAX_BLOCK_SIZE_COUNT < sizes.length)) :
    (pool_init sizes st).2.heap =
      (initLoop sizes.length (initSbs sizes st) sizes.length
        st.heap st.freelist_head_arr 0).2.1 := by
  unfold pool_init
  rw [if_neg hg]

theorem pool_init_heads (sizes : List Nat) (st : PoolState)
    (hg : ¬(sizes.length = 0 ∨ MAX_BLOCK_SIZE_COUNT < sizes.length)) :
    (pool_init sizes st).2.freelist_head_arr =
      (initLoop sizes.length (initSbs sizes st) sizes.length
        st.heap st.freelist_head_arr 0).2.2 := by
  unfold pool_init
  rw [if_neg hg]

theorem pool_init_sbs (sizes : List Nat) (st : PoolState)
    (hg : ¬(sizes.length = 0 ∨ MAX_BLOCK_SIZE_COUNT < sizes.length)) :
    (pool_init sizes st).2.sorted_block_size_arr = initSbs sizes st := by
  unfold pool_init
  rw [if_neg hg]

theorem pool_init_count (sizes : List Nat) (st : PoolState)
    (hg : ¬(sizes.length = 0 ∨ MAX_BLOCK_SIZE_COUNT < sizes.length)) :
    (pool_init sizes st).2.block_size_count_var = sizes.length := by
  unfold pool_init
  rw [if_neg hg]

theorem sortDesc_length (l : List Nat) : (sortDesc l).length = l.length :=
  List.length_insertionSort _ l

theorem mem_sortDesc (l : List Nat) (x : Nat) : x ∈ sortDesc l ↔ x ∈ l :=
  List.mem_insertionSort _

theorem initSbs_lt (sizes : List Nat) (st : PoolState) (j : Nat)
    (hj : j < sizes.length) :
    initSbs sizes st j = (sortDesc sizes).getD j 0 := by
  simp [initSbs, hj]

theorem initSbs_valid_iff (sizes : List Nat) (st : PoolState) :
    (∀ j, j < sizes.length → 1 ≤ initSbs sizes st j ∧ initSbs sizes st j ≤ 65533)
      ↔ ∀ s ∈ sizes, 1 ≤ s ∧ s ≤ 65533 := by
  have hlen := sortDesc_length sizes
  constructor
  · intro h s hs
    have hs2 : s ∈ sortDesc sizes := (mem_sortDesc sizes s).mpr hs
    obtain ⟨j, hj, rfl⟩ := List.mem_iff_getElem.mp hs2
    have := h j (by omega)
    rwa [initSbs_lt _ _ _ (by omega), List.getD_eq_getElem _ 0 hj] at this
  · intro h j hj
    rw [initSbs_lt _ _ _ hj]
    have hj2 : j < (sortDesc sizes).length := by omega
    rw [List.getD_eq_getElem _ 0 hj2]
    exact h _ ((mem_sortDesc _ _).mp (List.getElem_mem hj2))

/-- Claim C3: pool_init(sizes, count) returns true iff the (non-null) size
array has 1 <= count <= 255, every size s satisfies
1 <= s <= HEAP_SIZE - 3 = 65533, and the section-4.3 layout recurrence
places all count classes without any partition exceeding the remaining
heap bytes; in particular a single class of size 65533 succeeds and a
single class of size 65534 fails. -/
theorem C3_pool_init_contract (sizes : List Nat) (st : PoolState) :
    ((pool_init sizes st).1 = true ↔
      1 ≤ sizes.length ∧ sizes.length ≤ MAX_BLOCK_SIZE_COUNT ∧
      (∀ s ∈ sizes, 1 ≤ s ∧ s ≤ HEAP_SIZE - METADATA_LENGTH) ∧
      (specLayout sizes.length (fun j => (sortDesc sizes).getD j 0)
        sizes.length 0).isSome) ∧
    (pool_init [65533] PoolState.initial).1 = true ∧
    (pool_init [65534] PoolState.initial).1 = false := by
  refine ⟨?_, by decide, by decide⟩
  have hnorm : HEAP_SIZE - METADATA_LENGTH = 65533 := by decide
  by_cases hg : sizes.length = 0 ∨ MAX_BLOCK_SIZE_COUNT < sizes.length
  · constructor
    · intro h
      exfalso
      unfold pool_init at h
      rw [if_pos hg] at h
      exact absurd h (by simp)
    · rintro ⟨h1, h2, _, _⟩
      exfalso
      simp only [MAX_BLOCK_SIZE_COUNT] at h2 hg
      omega
  · rw [pool_init_flag sizes st hg]
    have hcongr : specLayout sizes.length (initSbs sizes st) sizes.length 0 =
        specLayout sizes.length (fun j => (sortDesc sizes).getD j 0)
          sizes.length 0 :=
      specLayout_congr _ _ _ (fun j hj => initSbs_lt sizes st j hj)
        _ _ (le_refl _)
    constructor
    · intro htrue
      have hvalid := initLoop_true_sizes_valid sizes.length (initSbs sizes st)
        sizes.length st.heap st.freelist_head_arr 0 htrue
      have hval : ∀ j, j < sizes.length →
          1 ≤ initSbs sizes st j ∧ initSbs sizes st j ≤ 65533 :=
        fun j hj => hvalid j (by omega) hj
      have hmem := (initSbs_valid_iff sizes st).mp hval
      refine ⟨by omega, by simp only [MAX_BLOCK_SIZE_COUNT] at hg ⊢; omega,
        by rw [hnorm]; exact hmem, ?_⟩
      · rw [← hcongr]
        exact (initLoop_true_iff_spec sizes.length (initSbs sizes st)
          sizes.length st.heap st.freelist_head_arr 0 (le_refl _)
          (fun j _ hj => hval j hj)).mp htrue
    · rintro ⟨h1, h2, hmem, hsome⟩
      rw [hnorm] at hmem
      have hval := (initSbs_valid_iff sizes st).mpr hmem
      rw [initLoop_true_iff_spec sizes.length (initSbs sizes st)
        sizes.length st.heap st.freelist_head_arr 0 (le_refl _)
        (fun j _ hj => hval j hj)]
      rw [hcongr]
      exact hsome

/-- Witness for C3 at a concrete input: a single class of size 8
satisfies the right-hand side, so pool_init succeeds on it. -/
theorem C3_pool_init_contract_witness :
    (pool_init [8] PoolState.initial).1 = true :=
  ((C3_pool_init_contract [8] PoolState.initial).1).mpr
    ⟨by decide, by decide, by decide, by decide⟩

/-! Comparator and sort correctness. -/

theorem int32val_small (x : Nat) (hx : x < 2147483648) : int32val x = (x : Int) := by
  unfold int32val
  rw [if_pos (show x % 4294967296 < 2147483648 by omega)]
  omega

theorem qsort_cmp_le_iff (a b : Nat) (ha : a ≤ 65533) (hb : b ≤ 65533) :
    qsort_cmp a b ≤ 0 ↔ b ≤ a := by
  unfold qsort_cmp
  rw [int32val_small a (by omega), int32val_small b (by omega)]
  omega

theorem sortDesc_sorted (l : List Nat) :
    (sortDesc l).Sorted (fun a b => qsort_cmp a b ≤ 0) := by
  haveI ht : IsTotal Nat (fun a b => qsort_cmp a b ≤ 0) := by
    constructor
    intro a b
    simp only [qsort_cmp]
    omega
  haveI htr : IsTrans Nat (fun a b => qsort_cmp a b ≤ 0) := by
    constructor
    intro a b c
    simp only [qsort_cmp]
    omega
  exact List.sorted_insertionSort _ l

theorem sortDesc_perm (l : List Nat) : (sortDesc l).Perm l :=
  List.perm_insertionSort _ l

/-- Claim C8: after every successful pool_init, the live prefix of
sorted_block_size_arr is a permutation of the caller's sizes (duplicates
preserved) and is non-increasing in the class index; this holds even
though qsort_cmp reads the size_t elements through int pointers, because
every size accepted by a successful init is at most 65533 (so the int
read equals the true value). -/
theorem C8_sorted_descending (sizes : List Nat) (st0 : PoolState)
    (h : (pool_init sizes st0).1 = true) :
    ((List.range (pool_init sizes st0).2.block_size_count_var).map
        (pool_init sizes st0).2.sorted_block_size_arr).Perm sizes ∧
    (∀ i j, i ≤ j → j < (pool_init sizes st0).2.block_size_count_var →
      (pool_init sizes st0).2.sorted_block_size_arr j ≤
        (pool_init sizes st0).2.sorted_block_size_arr i) ∧
    ∀ j, j < (pool_init sizes st0).2.block_size_count_var →
      (pool_init sizes st0).2.sorted_block_size_arr j ≤ 65533 := by
  have hg : ¬(sizes.length = 0 ∨ MAX_BLOCK_SIZE_COUNT < sizes.length) := by
    intro hg
    unfold pool_init at h
    rw [if_pos hg] at h
    exact absurd h (by simp)
  rw [pool_init_count sizes st0 hg, pool_init_sbs sizes st0 hg]
  have hlen := sortDesc_length sizes
  have hvalid : ∀ j, j < sizes.length →
      1 ≤ initSbs sizes st0 j ∧ initSbs sizes st0 j ≤ 65533 := by
    intro j hj
    rw [pool_init_flag sizes st0 hg] at h
    exact initLoop_true_sizes_valid _ _ _ _ _ _ h j (by omega) hj
  have hmap : (List.range sizes.length).map (initSbs sizes st0) =
      sortDesc sizes := by
    apply List.ext_getElem
    · simp [hlen]
    · intro i h1 h2
      simp only [List.getElem_map, List.getElem_range]
      rw [initSbs_lt sizes st0 i (by simpa using h1)]
      exact List.getD_eq_getElem _ 0 h2
  refine ⟨hmap ▸ sortDesc_perm sizes, ?_, fun j hj => (hvalid j hj).2⟩
  intro i j hij hj
  rcases Nat.eq_or_lt_of_le hij with rfl | hlt
  · exact le_refl _
  · have hi : i < sizes.length := by omega
    have hs := sortDesc_sorted sizes
    have hr := hs.rel_get_of_lt (a := ⟨i, by omega⟩) (b := ⟨j, by omega⟩)
      (by simpa using hlt)
    simp only [List.get_eq_getElem] at hr
    rw [initSbs_lt sizes st0 i hi, initSbs_lt sizes st0 j hj,
      List.getD_eq_getElem _ 0 (by omega : i < (sortDesc sizes).length),
      List.getD_eq_getElem _ 0 (by omega : j < (sortDesc sizes).length)]
    have hvi := hvalid i hi
    have hvj := hvalid j hj
    rw [initSbs_lt sizes st0 i hi,
      List.getD_eq_getElem _ 0 (by omega : i < (sortDesc sizes).length)] at hvi
    rw [initSbs_lt sizes st0 j hj,
      List.getD_eq_getElem _ 0 (by omega : j < (sortDesc sizes).length)] at hvj
    exact (qsort_cmp_le_iff _ _ hvi.2 hvj.2).mp hr

/-- Witness for C8 at a concrete input: pool_init([4, 9], 2) succeeds and
the sorted array is the descending permutation [9, 4]. -/
theorem C8_sorted_descending_witness :
    ((List.range (pool_init [4, 9] PoolState.initial).2.block_size_count_var).map
      (pool_init [4, 9] PoolState.initial).2.sorted_block_size_arr).Perm
      [4, 9] :=
  (C8_sorted_descending [4, 9] PoolState.initial (by decide)).1

/-! Characterization of the header-writing loop. -/

theorem insertMetadata_frame (bs : Nat) :
    ∀ fuel h idx upper i o,
    (bs + METADATA_LENGTH) ∣ (upper - idx) →
    (o < idx ∨ upper ≤ o) →
    insertMetadata fuel h idx upper bs i o = h o := by
  intro fuel
  induction fuel with
  | zero => intro h idx upper i o _ _; rfl
  | succ f ih =>
    intro h idx upper i o hdvd ho
    simp only [insertMetadata]
    split
    · rename_i hlt
      have hM : METADATA_LENGTH = 3 := rfl
      have hge : bs + METADATA_LENGTH ≤ upper - idx :=
        Nat.le_of_dvd (by omega) hdvd
      rw [ih _ _ _ _ _ ?_ ?_]
      · exact writeHeader_other _ _ _ _ _ (by omega) (by omega) (by omega)
      · have h1 : upper - (idx + (bs + METADATA_LENGTH)) =
            (upper - idx) - (bs + METADATA_LENGTH) := by omega
        rw [h1]
        exact Nat.dvd_sub' hdvd dvd_rfl
      · omega
    · rfl

theorem insertMetadata_read (bs : Nat) (hbs : 1 ≤ bs) :
    ∀ m fuel h idx i, m ≤ fuel →
    idx + m * (bs + METADATA_LENGTH) ≤ 65536 → i ≤ 254 →
    ∀ k, k < m →
    readNext (insertMetadata fuel h idx (idx + m * (bs + METADATA_LENGTH)) bs i)
        (idx + k * (bs + METADATA_LENGTH)) =
      (if k + 1 < m then idx + (k + 1) * (bs + METADATA_LENGTH) + METADATA_LENGTH
       else 0) ∧
    readPart (insertMetadata fuel h idx (idx + m * (bs + METADATA_LENGTH)) bs i)
        (idx + k * (bs + METADATA_LENGTH)) = i := by
  intro m
  induction m with
  | zero => intro fuel h idx i _ _ _ k hk; omega
  | succ m ih =>
    intro fuel h idx i hfuel hbound hi k hk
    obtain ⟨f, rfl⟩ : ∃ f, fuel = f + 1 := ⟨fuel - 1, by omega⟩
    have hM : METADATA_LENGTH = 3 := rfl
    have hsm : (m + 1) * (bs + METADATA_LENGTH) =
        m * (bs + METADATA_LENGTH) + (bs + METADATA_LENGTH) :=
      Nat.succ_mul m (bs + METADATA_LENGTH)
    have hTm : m ≤ m * (bs + METADATA_LENGTH) := by
      calc m = m * 1 := (Nat.mul_one m).symm
      _ ≤ m * (bs + METADATA_LENGTH) := Nat.mul_le_mul_left m (by omega)
    have hTm4 : 1 ≤ m → 4 ≤ m * (bs + METADATA_LENGTH) := by
      intro h1
      calc 4 ≤ bs + METADATA_LENGTH := by omega
      _ = 1 * (bs + METADATA_LENGTH) := (Nat.one_mul _).symm
      _ ≤ m * (bs + METADATA_LENGTH) := Nat.mul_le_mul_right _ h1
    have hlt : idx < idx + (m + 1) * (bs + METADATA_LENGTH) := by omega
    simp only [insertMetadata, if_pos hlt]
    -- the value stored in the first header
    have hveq : (if idx + bs + 2 * METADATA_LENGTH <
          idx + (m + 1) * (bs + METADATA_LENGTH) ∧
          idx + bs + 2 * METADATA_LENGTH ≤ 65535
        then idx + bs + 2 * METADATA_LENGTH else 0) =
        (if 1 ≤ m then idx + (bs + METADATA_LENGTH) + METADATA_LENGTH
         else 0) := by
      by_cases h1 : 1 ≤ m
      · have := hTm4 h1
        rw [if_pos (by omega), if_pos h1]
        omega
      · have hm0 : m = 0 := by omega
        subst hm0
        rw [if_neg (by omega), if_neg (by omega)]
    rw [hveq]
    -- the recursive call's window
    have hup : idx + (m + 1) * (bs + METADATA_LENGTH) =
        (idx + (bs + METADATA_LENGTH)) + m * (bs + METADATA_LENGTH) := by omega
    rw [hup]
    cases k with
    | zero =>
      -- read the first header through the frame of the recursive call
      have hframe : ∀ o, o < idx + (bs + METADATA_LENGTH) →
          insertMetadata f
            (writeHeader h idx
              (if 1 ≤ m then idx + (bs + METADATA_LENGTH) + METADATA_LENGTH
               else 0) i)
            (idx + (bs + METADATA_LENGTH))
            ((idx + (bs + METADATA_LENGTH)) + m * (bs + METADATA_LENGTH)) bs i o =
          writeHeader h idx
            (if 1 ≤ m then idx + (bs + METADATA_LENGTH) + METADATA_LENGTH
             else 0) i o := by
        intro o ho
        exact insertMetadata_frame bs f _ _ _ i o
          (by simp only [Nat.add_sub_cancel_left]; exact dvd_mul_left _ _) (Or.inl ho)
      have hv256 : (if 1 ≤ m then idx + (bs + METADATA_LENGTH) + METADATA_LENGTH
          else 0) < 65536 := by
        by_cases h1 : 1 ≤ m
        · have := hTm4 h1
          rw [if_pos h1]
          omega
        · rw [if_neg h1]
          omega
      constructor
      · rw [Nat.zero_mul, Nat.add_zero]
        rw [readNext_congr _ _ idx (hframe idx (by omega))
          (hframe (idx + 1) (by omega))]
        rw [readNext_writeHeader_self _ _ _ _ hv256]
        by_cases h1 : 1 ≤ m
        · rw [if_pos h1, if_pos (by omega)]
          rw [Nat.one_mul]
        · rw [if_neg h1, if_neg (by omega)]
      · rw [Nat.zero_mul, Nat.add_zero]
        rw [readPart_congr _ _ idx (hframe (idx + 2) (by omega))]
        exact readPart_writeHeader_self _ _ _ _ (by omega)
    | succ u =>
      have hread := ih f
        (writeHeader h idx
          (if 1 ≤ m then idx + (bs + METADATA_LENGTH) + METADATA_LENGTH
           else 0) i)
        (idx + (bs + METADATA_LENGTH)) i (by omega) (by omega) hi u (by omega)
      have hpos : idx + (u + 1) * (bs + METADATA_LENGTH) =
          (idx + (bs + METADATA_LENGTH)) + u * (bs + METADATA_LENGTH) := by
        ring
      rw [hpos]
      refine ⟨?_, hread.2⟩
      rw [hread.1]
      by_cases hu : u + 1 < m
      · rw [if_pos hu, if_pos (by omega)]
        ring
      · rw [if_neg hu, if_neg (by omega)]

/-! From per-header read facts to a threaded free list. -/

theorem mem_classBlocks (T : Nat) :
    ∀ m start q, q ∈ classBlocks start T m ↔
      ∃ k, k < m ∧ q = start + k * T + METADATA_LENGTH := by
  intro m
  induction m with
  | zero => intro start q; simp [classBlocks]
  | succ n ih =>
    intro start q
    simp only [classBlocks, List.mem_cons, ih]
    constructor
    · rintro (rfl | ⟨k, hk, rfl⟩)
      · exact ⟨0, by omega, by ring⟩
      · exact ⟨k + 1, by omega, by ring⟩
    · rintro ⟨k, hk, rfl⟩
      cases k with
      | zero => left; ring
      | succ u => right; exact ⟨u, by omega, by ring⟩

theorem chainIs_of_reads (h : Nat → Nat) (T : Nat) :
    ∀ m idx, 1 ≤ m →
    (∀ k, k < m → readNext h (idx + k * T) =
      if k + 1 < m then idx + (k + 1) * T + METADATA_LENGTH else 0) →
    chainIs h (idx + METADATA_LENGTH) (classBlocks idx T m) := by
  intro m
  induction m with
  | zero => intro idx h1 _; omega
  | succ n ih =>
    intro idx _ hreads
    rcases Nat.eq_zero_or_pos n with rfl | hn
    · refine ⟨rfl, ?_⟩
      have h0 := hreads 0 (by omega)
      rw [if_neg (by omega)] at h0
      have hsub : idx + METADATA_LENGTH - METADATA_LENGTH = idx :=
        Nat.add_sub_cancel idx METADATA_LENGTH
      rw [hsub]
      simp only [Nat.zero_mul, Nat.add_zero] at h0
      rw [h0]
      exact rfl
    · refine ⟨rfl, ?_⟩
      have hsub : idx + METADATA_LENGTH - METADATA_LENGTH = idx :=
        Nat.add_sub_cancel idx METADATA_LENGTH
      rw [hsub]
      have h0 := hreads 0 (by omega)
      rw [if_pos (by omega)] at h0
      simp only [Nat.zero_mul, Nat.add_zero] at h0
      rw [h0, Nat.one_mul]
      have hshift : ∀ k, k < n → readNext h ((idx + T) + k * T) =
          if k + 1 < n then (idx + T) + (k + 1) * T + METADATA_LENGTH
          else 0 := by
        intro k hk
        have := hreads (k + 1) (by omega)
        have e1 : idx + (k + 1) * T = (idx + T) + k * T := by ring
        have e2 : idx + (k + 1 + 1) * T = (idx + T) + (k + 1) * T := by ring
        rw [e1] at this
        rw [this]
        by_cases hkn : k + 1 < n
        · rw [if_pos (by omega), if_pos hkn, e2]
        · rw [if_neg (by omega), if_neg hkn]
      exact ih (idx + T) hn hshift

/-- Full characterization of a successful layout loop run: the loop
succeeds, touches no byte below the starting cursor and no free-list head
outside the processed window, and for every processed class writes its
head as the partition start plus 3 and threads its free list through the
partition's headers, tagging every header with the class index. -/
theorem initLoop_chains (count : Nat) (sbs : Nat → Nat) (hcount : count ≤ 255) :
    ∀ left heap heads cursor L flag heap2 heads2,
    left ≤ count →
    cursor ≤ HEAP_SIZE →
    (∀ j, count - left ≤ j → j < count → 1 ≤ sbs j ∧ sbs j ≤ 65533) →
    specLayout count sbs left cursor = some L →
    initLoop count sbs left heap heads cursor = (flag, heap2, heads2) →
    flag = true ∧
    (∀ o, o < cursor → heap2 o = heap o) ∧
    (∀ j, j < count - left ∨ count ≤ j → heads2 j = heads j) ∧
    ∀ t e, L.get? t = some e →
      heads2 (count - left + t) = e.1 + METADATA_LENGTH ∧
      e.2.1 = sbs (count - left + t) + METADATA_LENGTH ∧
      chainIs heap2 (e.1 + METADATA_LENGTH) (classBlocks e.1 e.2.1 e.2.2) ∧
      ∀ q ∈ classBlocks e.1 e.2.1 e.2.2,
        readPart heap2 (q - METADATA_LENGTH) = count - left + t := by
  intro left
  induction left with
  | zero =>
    intro heap heads cursor L flag heap2 heads2 _ _ _ hL hrun
    simp only [specLayout, Option.some.injEq] at hL
    subst hL
    simp only [initLoop, Prod.mk.injEq] at hrun
    obtain ⟨h1, h2, h3⟩ := hrun
    subst h1; subst h2; subst h3
    refine ⟨rfl, fun o _ => rfl, fun j _ => rfl, fun t e het => ?_⟩
    simp at het
  | succ m ih =>
    intro heap heads cursor L flag heap2 heads2 hle hc hval hL hrun
    have hM : METADATA_LENGTH = 3 := rfl
    have hi : count - (m + 1) < count := by omega
    have hv := hval (count - (m + 1)) (le_refl _) hi
    have hbs : ¬(sbs (count - (m + 1)) = 0 ∨
        HEAP_SIZE - METADATA_LENGTH < sbs (count - (m + 1))) := by
      simp only [HEAP_SIZE, METADATA_LENGTH]
      omega
    simp only [specLayout] at hL
    simp only [initLoop, if_neg hbs] at hrun
    set T := sbs (count - (m + 1)) + METADATA_LENGTH with hT
    set E := (HEAP_SIZE - cursor) / (m + 1) with hE
    set P := max T (E - E % T) with hP
    have hTpos : 4 ≤ T := by
      rw [hT, hM]
      omega
    have hdvd : T ∣ P := by
      have hsub : E - E % T = T * (E / T) := by
        have := Nat.mod_add_div E T
        omega
      rcases le_total T (E - E % T) with hmx | hmx
      · rw [hP, max_eq_right hmx, hsub]
        exact Dvd.intro _ rfl
      · rw [hP, max_eq_left hmx]
    obtain ⟨n, hPn⟩ := hdvd
    have hTle : T ≤ P := le_max_left _ _
    have hn1 : 1 ≤ n := by
      rcases Nat.eq_zero_or_pos n with rfl | h
      · omega
      · exact h
    -- dispatch the failure branch
    by_cases hrem : HEAP_SIZE - cursor < P
    · rw [if_pos hrem] at hL
      exact absurd hL (by simp)
    · rw [if_neg hrem] at hL hrun
      have hcc : cursor + P ≤ HEAP_SIZE := by omega
      -- destruct the spec layout recursion
      rcases hrecs : specLayout count sbs m (cursor + P) with _ | l
      · rw [hrecs] at hL
        exact absurd hL (by simp)
      · rw [hrecs] at hL
        simp only [Option.some.injEq] at hL
        subst hL
        -- feed the recursive run to the induction hypothesis
        have hrun2 : initLoop count sbs m
            (insertMetadata HEAP_SIZE heap cursor (cursor + P)
              (sbs (count - (m + 1))) (count - (m + 1)))
            (updFn heads (count - (m + 1)) ((cursor + METADATA_LENGTH) % 65536))
            (cursor + P) = (flag, heap2, heads2) := hrun
        have hvalm : ∀ j, count - m ≤ j → j < count →
            1 ≤ sbs j ∧ sbs j ≤ 65533 :=
          fun j h1 h2 => hval j (by omega) h2
        obtain ⟨hflag, hframe, hheads, hclasses⟩ :=
          ih _ _ (cursor + P) l flag heap2 heads2 (by omega) hcc hvalm
            hrecs hrun2
        have hPmul : P = n * T := by rw [hPn]; ring
        -- reads of the headers of this class in the final heap
        have hn65536 : cursor + n * T ≤ 65536 := by
          have : HEAP_SIZE = 65536 := rfl
          omega
        have hnfuel : n ≤ HEAP_SIZE := by
          have h1 : n ≤ n * T := by
            calc n = n * 1 := (Nat.mul_one n).symm
            _ ≤ n * T := Nat.mul_le_mul_left n (by omega)
          have : HEAP_SIZE = 65536 := rfl
          omega
        have hreads := insertMetadata_read (sbs (count - (m + 1))) (by omega)
          n HEAP_SIZE heap cursor (count - (m + 1)) hnfuel
          (by rw [← hT]; exact hn65536) (by omega)
        -- transfer the reads through the rest of the loop (frame)
        have hbyte : ∀ o, o < cursor + P →
            heap2 o = insertMetadata HEAP_SIZE heap cursor (cursor + P)
              (sbs (count - (m + 1))) (count - (m + 1)) o :=
          fun o ho => hframe o ho
        have hreadsF : ∀ k, k < n →
            readNext heap2 (cursor + k * T) =
              (if k + 1 < n then cursor + (k + 1) * T + METADATA_LENGTH
               else 0) ∧
            readPart heap2 (cursor + k * T) = count - (m + 1) := by
          intro k hk
          have h2 : (k + 1) * T = k * T + T := by ring
          have h1 : (k + 1) * T ≤ n * T := Nat.mul_le_mul_right T (by omega)
          have hkT : cursor + k * T + T ≤ cursor + P := by omega
          have hup : cursor + P = cursor + n * T := by omega
          have hr := hreads k hk
          rw [← hT] at hr
          rw [hup] at hbyte
          constructor
          · rw [readNext_congr
                (insertMetadata HEAP_SIZE heap cursor (cursor + n * T)
                  (sbs (count - (m + 1))) (count - (m + 1))) heap2
                (cursor + k * T) (hbyte _ (by omega)) (hbyte _ (by omega))]
            exact hr.1
          · rw [readPart_congr
                (insertMetadata HEAP_SIZE heap cursor (cursor + n * T)
                  (sbs (count - (m + 1))) (count - (m + 1))) heap2
                (cursor + k * T) (hbyte _ (by omega))]
            exact hr.2
        refine ⟨hflag, ?_, ?_, ?_⟩
        · intro o ho
          rw [hbyte o (by omega)]
          have e0 : cursor + P - cursor = P := by omega
          refine insertMetadata_frame _ HEAP_SIZE heap cursor (cursor + P) _ o
            ?_ (Or.inl ho)
          rw [e0, ← hT]
          exact ⟨n, hPn⟩
        · intro j hj
          have hj2 : j < count - m ∨ count ≤ j := by omega
          rw [hheads j hj2]
          exact updFn_other _ _ _ _ (by omega)
        · intro t e het
          cases t with
          | zero =>
            rw [List.get?_cons_zero] at het
            injection het with het
            subst het
            dsimp only
            have hPT : P / T = n := by
              rw [hPn]
              exact Nat.mul_div_cancel_left n (by omega)
            have hHS : HEAP_SIZE = 65536 := rfl
            refine ⟨?_, ?_, ?_, ?_⟩
            · rw [Nat.add_zero]
              rw [hheads _ (Or.inl (by omega))]
              rw [updFn_self]
              rw [Nat.mod_eq_of_lt (by omega)]
            · rw [Nat.add_zero]
            · rw [hPT]
              exact chainIs_of_reads heap2 T n cursor hn1
                (fun k hk => (hreadsF k hk).1)
            · rw [hPT]
              intro q hq
              rw [Nat.add_zero]
              obtain ⟨k, hkn, rfl⟩ := (mem_classBlocks T n cursor q).mp hq
              rw [Nat.add_sub_cancel _ _]
              exact (hreadsF k hkn).2
          | succ u =>
            rw [List.get?_cons_succ] at het
            have hu := hclasses u e het
            have hidx : count - m + u = count - (m + 1) + (u + 1) := by omega
            rw [← hidx]
            exact hu

/-! Static geometry of a chained layout: block bounds, separation of
headers, disjointness of classes. -/

theorem layoutChained_end :
    ∀ (L : List (Nat × Nat × Nat)) (cursor : Nat), layoutChained cursor L →
    cursor ≤ HEAP_SIZE := by
  intro L
  induction L with
  | nil => intro cursor hch; exact hch
  | cons x xs ih =>
    intro cursor hch
    have := ih _ hch.2.2.2
    omega

theorem layoutChained_entry :
    ∀ (L : List (Nat × Nat × Nat)) (cursor : Nat), layoutChained cursor L →
    ∀ t e, L.get? t = some e →
      cursor ≤ e.1 ∧ e.1 + e.2.2 * e.2.1 ≤ HEAP_SIZE ∧ 4 ≤ e.2.1 ∧ 1 ≤ e.2.2 := by
  intro L
  induction L with
  | nil => intro cursor _ t e het; simp at het
  | cons x xs ih =>
    intro cursor hch t e het
    obtain ⟨hx1, hx2, hx3, hx4⟩ := hch
    cases t with
    | zero =>
      rw [List.get?_cons_zero] at het
      injection het with het
      subst het
      have hend := layoutChained_end _ _ hx4
      exact ⟨by omega, by omega, hx2, hx3⟩
    | succ u =>
      rw [List.get?_cons_succ] at het
      have := ih _ hx4 u e het
      exact ⟨by omega, this.2.1, this.2.2⟩

theorem layoutChained_order :
    ∀ (L : List (Nat × Nat × Nat)) (cursor : Nat), layoutChained cursor L →
    ∀ t1 t2 e1 e2, t1 < t2 → L.get? t1 = some e1 → L.get? t2 = some e2 →
      e1.1 + e1.2.2 * e1.2.1 ≤ e2.1 := by
  intro L
  induction L with
  | nil => intro cursor _ t1 t2 e1 e2 _ h1 _; simp at h1
  | cons x xs ih =>
    intro cursor hch t1 t2 e1 e2 hlt h1 h2
    obtain ⟨hx1, _, _, hx4⟩ := hch
    cases t1 with
    | zero =>
      rw [List.get?_cons_zero] at h1
      injection h1 with h1
      subst h1
      obtain ⟨u, rfl⟩ : ∃ u, t2 = u + 1 := ⟨t2 - 1, by omega⟩
      rw [List.get?_cons_succ] at h2
      have := layoutChained_entry xs _ hx4 u e2 h2
      omega
    | succ u1 =>
      obtain ⟨u2, rfl⟩ : ∃ u2, t2 = u2 + 1 := ⟨t2 - 1, by omega⟩
      rw [List.get?_cons_succ] at h1 h2
      exact ih _ hx4 u1 u2 e1 e2 (by omega) h1 h2

theorem block_in_entry (e : Nat × Nat × Nat) (q : Nat)
    (hq : q ∈ classBlocks e.1 e.2.1 e.2.2) :
    e.1 + METADATA_LENGTH ≤ q ∧ q + e.2.1 ≤ e.1 + e.2.2 * e.2.1 + METADATA_LENGTH := by
  obtain ⟨k, hk, rfl⟩ := (mem_classBlocks _ _ _ _).mp hq
  constructor
  · omega
  · have h1 : (k + 1) * e.2.1 ≤ e.2.2 * e.2.1 := Nat.mul_le_mul_right _ (by omega)
    have h2 : (k + 1) * e.2.1 = k * e.2.1 + e.2.1 := by ring
    omega

/-- Every block payload offset of a chained layout is in [3, 65535]. -/
theorem blocks_bounds (L : List (Nat × Nat × Nat)) (hch : layoutChained 0 L)
    (i q : Nat) (hq : q ∈ blocksOf L i) :
    METADATA_LENGTH ≤ q ∧ q ≤ 65535 := by
  unfold blocksOf at hq
  rcases hL : L.get? i with _ | e
  · rw [hL] at hq; simp at hq
  · rw [hL] at hq
    obtain ⟨hc, hend, hT, hn⟩ := layoutChained_entry L 0 hch i e hL
    have hb := block_in_entry e q hq
    have hHS : HEAP_SIZE = 65536 := rfl
    have hML : METADATA_LENGTH = 3 := rfl
    constructor
    · omega
    · omega

/-- Distinct blocks of a chained layout (same or different class) have
payload offsets at least a full stride, hence at least 4, apart. -/
theorem blocks_separated (L : List (Nat × Nat × Nat)) (hch : layoutChained 0 L)
    (i j p q : Nat) (hp : p ∈ blocksOf L i) (hq : q ∈ blocksOf L j)
    (hne : i ≠ j ∨ p ≠ q) : p + 4 ≤ q ∨ q + 4 ≤ p := by
  unfold blocksOf at hp hq
  rcases hLi : L.get? i with _ | e1
  · rw [hLi] at hp; simp at hp
  rcases hLj : L.get? j with _ | e2
  · rw [hLj] at hq; simp at hq
  rw [hLi] at hp
  rw [hLj] at hq
  obtain ⟨_, _, hT1, _⟩ := layoutChained_entry L 0 hch i e1 hLi
  obtain ⟨_, _, hT2, _⟩ := layoutChained_entry L 0 hch j e2 hLj
  have hb1 := block_in_entry e1 p hp
  have hb2 := block_in_entry e2 q hq
  rcases Nat.lt_trichotomy i j with hij | rfl | hij
  · have hord := layoutChained_order L 0 hch i j e1 e2 hij hLi hLj
    left
    omega
  · -- same class: distinct multiples of the stride
    rw [hLi] at hLj
    injection hLj with hLj
    subst hLj
    have hpq : p ≠ q := by
      rcases hne with h | h
      · exact absurd rfl h
      · exact h
    obtain ⟨a, ha, rfl⟩ := (mem_classBlocks _ _ _ _).mp hp
    obtain ⟨b, hb, rfl⟩ := (mem_classBlocks _ _ _ _).mp hq
    have hab : a ≠ b := by
      intro h
      exact hpq (by rw [h])
    rcases Nat.lt_trichotomy a b with h | h | h
    · left
      have h1 : (a + 1) * e1.2.1 ≤ b * e1.2.1 := Nat.mul_le_mul_right _ (by omega)
      have h2 : (a + 1) * e1.2.1 = a * e1.2.1 + e1.2.1 := by ring
      omega
    · exact absurd h hab
    · right
      have h1 : (b + 1) * e1.2.1 ≤ a * e1.2.1 := Nat.mul_le_mul_right _ (by omega)
      have h2 : (b + 1) * e1.2.1 = b * e1.2.1 + e1.2.1 := by ring
      omega
  · have hord := layoutChained_order L 0 hch j i e2 e1 hij hLj hLi
    right
    omega

theorem classBlocks_nodup (T : Nat) (hT : 1 ≤ T) :
    ∀ n start, (classBlocks start T n).Nodup := by
  intro n
  induction n with
  | zero => intro start; simp [classBlocks]
  | succ m ih =>
    intro start
    simp only [classBlocks, List.nodup_cons]
    refine ⟨?_, ih (start + T)⟩
    intro hmem
    obtain ⟨k, hk, hkeq⟩ := (mem_classBlocks _ _ _ _).mp hmem
    omega

theorem blocksOf_nodup (L : List (Nat × Nat × Nat)) (hch : layoutChained 0 L)
    (i : Nat) : (blocksOf L i).Nodup := by
  unfold blocksOf
  rcases hL : L.get? i with _ | e
  · simp
  · obtain ⟨_, _, hT, _⟩ := layoutChained_entry L 0 hch i e hL
    exact classBlocks_nodup _ (by omega) _ _

/-! Chain helper lemmas. -/

theorem chainIs_congr (h h2 : Nat → Nat) :
    ∀ l : List Nat,
    (∀ x ∈ l, readNext h2 (x - METADATA_LENGTH) = readNext h (x - METADATA_LENGTH)) →
    ∀ off, chainIs h off l → chainIs h2 off l := by
  intro l
  induction l with
  | nil => intro _ off hc; exact hc
  | cons x xs ih =>
    intro hx off hc
    obtain ⟨rfl, hrest⟩ := hc
    refine ⟨rfl, ?_⟩
    rw [hx off (by simp)]
    exact ih (fun y hy => hx y (by simp [hy])) _ hrest

theorem chainIs_head_cases (h : Nat → Nat) (off : Nat) :
    ∀ l, chainIs h off l → (off = 0 ∧ l = []) ∨ ∃ rest, l = off :: rest := by
  intro l hc
  cases l with
  | nil => exact Or.inl ⟨hc, rfl⟩
  | cons x xs =>
    right
    obtain ⟨rfl, _⟩ := hc
    exact ⟨xs, rfl⟩

/-! The central free-list invariant: for each class, the offsets on its
chain plus the held offsets belonging to that class form exactly the
blocks laid out for it at init; every header's partition byte is stable;
held pointers all belong to some class. -/

def updL (f : Nat → List Nat) (k : Nat) (v : List Nat) : Nat → List Nat :=
  fun j => if j = k then v else f j

def PoolInv (L : List (Nat × Nat × Nat)) (count : Nat) (st : PoolState)
    (held : Multiset Nat) (fr : Nat → List Nat) : Prop :=
  (∀ i, i < count → chainIs st.heap (st.freelist_head_arr i) (fr i)) ∧
  (∀ i, i < count →
    (fr i : Multiset Nat) + held.filter (fun p => p ∈ blocksOf L i) =
      (blocksOf L i : Multiset Nat)) ∧
  (∀ i, i < count → ∀ q ∈ blocksOf L i,
    readPart st.heap (q - METADATA_LENGTH) = i) ∧
  ∀ p ∈ held, ∃ i, i < count ∧ p ∈ blocksOf L i

theorem PoolInv_fr_subset (L : List (Nat × Nat × Nat)) (count : Nat)
    (st : PoolState) (held : Multiset Nat) (fr : Nat → List Nat)
    (hinv : PoolInv L count st held fr) (i : Nat) (hi : i < count) :
    ∀ q ∈ fr i, q ∈ blocksOf L i := by
  intro q hq
  have h := hinv.2.1 i hi
  have : q ∈ (fr i : Multiset Nat) + held.filter (fun p => p ∈ blocksOf L i) := by
    rw [Multiset.mem_add]
    exact Or.inl (by simpa using hq)
  rw [h] at this
  simpa using this

theorem PoolInv_malloc (L : List (Nat × Nat × Nat)) (count : Nat)
    (st : PoolState) (held : Multiset Nat) (fr : Nat → List Nat) (n : Nat)
    (hch : layoutChained 0 L)
    (hcnt : st.block_size_count_var = count)
    (hinv : PoolInv L count st held fr) :
    ∀ off, (pool_malloc st n).1 = some off →
    ∃ i rest, i < count ∧ fr i = off :: rest ∧ off ∈ blocksOf L i ∧
      n ≤ st.sorted_block_size_arr i ∧
      PoolInv L count (pool_malloc st n).2 (off ::ₘ held) (updL fr i rest) := by
  subst hcnt
  intro off hoff
  by_cases hg : n = 0 ∨ st.sorted_block_size_arr 0 < n
  · rw [pool_malloc_guard st n hg] at hoff
    exact absurd hoff (by simp)
  cases hf : findPartition st.freelist_head_arr st.sorted_block_size_arr n
      st.block_size_count_var with
  | none =>
    rw [pool_malloc_nofit st n hg hf] at hoff
    exact absurd hoff (by simp)
  | some i =>
    obtain ⟨e1, e2, _, _, e5⟩ := pool_malloc_pop st n i hg hf
    rw [e1] at hoff
    injection hoff with hoff
    obtain ⟨hik, h0, hsz, _⟩ := (findPartition_some_iff st.freelist_head_arr
      st.sorted_block_size_arr n st.block_size_count_var i).mp hf
    have hchain := hinv.1 i hik
    rcases chainIs_head_cases st.heap (st.freelist_head_arr i) (fr i) hchain
      with ⟨hz, _⟩ | ⟨rest, hfr⟩
    · exact absurd hz h0
    subst hoff
    have hmem : st.freelist_head_arr i ∈ blocksOf L i := by
      apply PoolInv_fr_subset L _ st held fr hinv i hik
      rw [hfr]
      simp
    refine ⟨i, rest, hik, hfr, hmem, hsz, ?_, ?_, ?_, ?_⟩
    · intro j hj
      rw [e2]
      by_cases hij : j = i
      · subst hij
        rw [e5, updFn_self]
        have : updL fr j rest j = rest := by simp [updL]
        rw [this]
        rw [hfr] at hchain
        exact hchain.2
      · rw [e5, updFn_other _ _ _ _ hij]
        have : updL fr i rest j = fr j := by simp [updL, hij]
        rw [this]
        exact hinv.1 j hj
    · intro j hj
      by_cases hij : j = i
      · subst hij
        have hu : updL fr j rest j = rest := by simp [updL]
        rw [hu]
        rw [Multiset.filter_cons_of_pos _ hmem, Multiset.add_cons]
        have hold := hinv.2.1 j hj
        rw [hfr] at hold
        rw [← Multiset.cons_coe, Multiset.cons_add] at hold
        exact hold
      · have hu : updL fr i rest j = fr j := by simp [updL, hij]
        rw [hu]
        have hnotin : st.freelist_head_arr i ∉ blocksOf L j := by
          intro hmem2
          rcases blocks_separated L hch i j _ _ hmem hmem2
            (Or.inl (fun h => hij h.symm)) with h | h <;> omega
        rw [Multiset.filter_cons_of_neg _ hnotin]
        exact hinv.2.1 j hj
    · intro j hj q hq
      rw [e2]
      exact hinv.2.2.1 j hj q hq
    · intro p hp
      rcases Multiset.mem_cons.mp hp with rfl | hp
      · exact ⟨i, hik, hmem⟩
      · exact hinv.2.2.2 p hp

theorem filter_erase_pos {pr : Nat → Prop} [DecidablePred pr]
    (s : Multiset Nat) (p : Nat) (hp : pr p) :
    (s.erase p).filter pr = (s.filter pr).erase p := by
  ext a
  by_cases hap : a = p
  · subst hap
    rw [Multiset.count_filter, if_pos hp, Multiset.count_erase_self,
      Multiset.count_erase_self, Multiset.count_filter, if_pos hp]
  · rw [Multiset.count_filter, Multiset.count_erase_of_ne hap,
      Multiset.count_erase_of_ne hap, Multiset.count_filter]

theorem filter_erase_neg {pr : Nat → Prop} [DecidablePred pr]
    (s : Multiset Nat) (p : Nat) (hp : ¬pr p) :
    (s.erase p).filter pr = s.filter pr := by
  ext a
  by_cases hap : a = p
  · subst hap
    rw [Multiset.count_filter, if_neg hp, Multiset.count_filter, if_neg hp]
  · rw [Multiset.count_filter, Multiset.count_erase_of_ne hap,
      Multiset.count_filter]

theorem PoolInv_free (L : List (Nat × Nat × Nat)) (count : Nat)
    (st : PoolState) (held : Multiset Nat) (fr : Nat → List Nat) (p : Nat)
    (hch : layoutChained 0 L)
    (hinv : PoolInv L count st held fr)
    (hp : p ∈ held) :
    ∃ c, c < count ∧ p ∈ blocksOf L c ∧
      PoolInv L count (pool_free st p) (held.erase p)
        (updL fr c (p :: fr c)) := by
  obtain ⟨c, hc, hpc⟩ := hinv.2.2.2 p hp
  have hpart : readPart st.heap (p - METADATA_LENGTH) = c :=
    hinv.2.2.1 c hc p hpc
  have hpb := blocks_bounds L hch c p hpc
  have hML : METADATA_LENGTH = 3 := rfl
  have hheap2 : (pool_free st p).heap =
      writeNextBytes st.heap (p - METADATA_LENGTH) (st.freelist_head_arr c) := by
    simp [pool_free, hpart]
  have hheads2 : (pool_free st p).freelist_head_arr =
      updFn st.freelist_head_arr c (p % 65536) := by
    simp [pool_free, hpart]
  have hmod : p % 65536 = p := Nat.mod_eq_of_lt (by omega)
  -- p is not on any chain
  have hpnotfr : p ∉ fr c := by
    intro hmem
    have hsum := hinv.2.1 c hc
    have h1 : 1 ≤ Multiset.count p (fr c : Multiset Nat) :=
      Multiset.one_le_count_iff_mem.mpr (by simpa using hmem)
    have h2 : 1 ≤ Multiset.count p
        (held.filter (fun q => q ∈ blocksOf L c)) :=
      Multiset.one_le_count_iff_mem.mpr (Multiset.mem_filter.mpr ⟨hp, hpc⟩)
    have h3 : Multiset.count p (blocksOf L c : Multiset Nat) ≤ 1 := by
      have hnd : (blocksOf L c : Multiset Nat).Nodup := by
        rw [Multiset.coe_nodup]
        exact blocksOf_nodup L hch c
      exact Multiset.nodup_iff_count_le_one.mp hnd p
    rw [← hsum, Multiset.count_add] at h3
    omega
  -- every chain element is a block distinct from p
  have hfrne : ∀ j, j < count → ∀ x ∈ fr j, x ≠ p ∧ x ∈ blocksOf L j := by
    intro j hj x hx
    have hxb := PoolInv_fr_subset L count st held fr hinv j hj x hx
    refine ⟨?_, hxb⟩
    intro hxp
    by_cases hjc : j = c
    · subst hjc
      rw [hxp] at hx
      exact hpnotfr hx
    · rw [hxp] at hxb
      rcases blocks_separated L hch j c p p hxb hpc (Or.inl hjc) with h | h <;>
        omega
  have hbyteeq : ∀ j, j < count → ∀ x ∈ fr j,
      readNext (pool_free st p).heap (x - METADATA_LENGTH) =
        readNext st.heap (x - METADATA_LENGTH) := by
    intro j hj x hx
    obtain ⟨hxp, hxb⟩ := hfrne j hj x hx
    have hxbnd := blocks_bounds L hch j x hxb
    have hsep : x + 4 ≤ p ∨ p + 4 ≤ x := by
      by_cases hjc : j = c
      · subst hjc
        exact blocks_separated L hch j j x p hxb hpc (Or.inr hxp)
      · exact blocks_separated L hch j c x p hxb hpc (Or.inl hjc)
    rw [hheap2]
    exact readNext_congr _ _ _
      (writeNextBytes_other _ _ _ _ (by omega) (by omega))
      (writeNextBytes_other _ _ _ _ (by omega) (by omega))
  -- the head of class c is bounded
  have hhead_lt : st.freelist_head_arr c < 65536 := by
    rcases chainIs_head_cases st.heap (st.freelist_head_arr c) (fr c)
        (hinv.1 c hc) with ⟨hz, _⟩ | ⟨rest, hfr⟩
    · omega
    · have : st.freelist_head_arr c ∈ fr c := by rw [hfr]; simp
      have hxb := PoolInv_fr_subset L count st held fr hinv c hc _ this
      have := blocks_bounds L hch c _ hxb
      omega
  refine ⟨c, hc, hpc, ?_, ?_, ?_, ?_⟩
  · -- chains
    intro j hj
    rw [hheads2]
    by_cases hjc : j = c
    · subst hjc
      rw [updFn_self, hmod]
      have hu : updL fr j (p :: fr j) j = p :: fr j := by simp [updL]
      rw [hu]
      refine ⟨rfl, ?_⟩
      have hread : readNext (pool_free st p).heap (p - METADATA_LENGTH) =
          st.freelist_head_arr j := by
        rw [hheap2]
        exact readNext_writeNextBytes_self _ _ _ hhead_lt
      rw [hread]
      exact chainIs_congr _ _ (fr j) (hbyteeq j hj) _ (hinv.1 j hj)
    · rw [updFn_other _ _ _ _ hjc]
      have hu : updL fr c (p :: fr c) j = fr j := by simp [updL, hjc]
      rw [hu]
      exact chainIs_congr _ _ (fr j) (hbyteeq j hj) _ (hinv.1 j hj)
  · -- conservation
    intro j hj
    by_cases hjc : j = c
    · subst hjc
      have hu : updL fr j (p :: fr j) j = p :: fr j := by simp [updL]
      rw [hu]
      rw [filter_erase_pos held p hpc]
      rw [← Multiset.cons_coe, Multiset.cons_add]
      have hold := hinv.2.1 j hj
      have hpF : p ∈ held.filter (fun q => q ∈ blocksOf L j) :=
        Multiset.mem_filter.mpr ⟨hp, hpc⟩
      rw [← Multiset.cons_erase hpF, Multiset.add_cons] at hold
      exact hold
    · have hu : updL fr c (p :: fr c) j = fr j := by simp [updL, hjc]
      rw [hu]
      have hnotin : p ∉ blocksOf L j := by
        intro hmem2
        rcases blocks_separated L hch c j p p hpc hmem2
          (Or.inl (fun h => hjc h.symm)) with h | h <;> omega
      rw [filter_erase_neg held p hnotin]
      exact hinv.2.1 j hj
  · -- partition bytes
    intro j hj q hq
    have hqb := blocks_bounds L hch j q hq
    have hbyte : (pool_free st p).heap (q - METADATA_LENGTH + 2) =
        st.heap (q - METADATA_LENGTH + 2) := by
      rw [hheap2]
      by_cases hqp : q = p
      · subst hqp
        exact writeNextBytes_other _ _ _ _ (by omega) (by omega)
      · have hsep := blocks_separated L hch j c q p hq hpc (Or.inr hqp)
        exact writeNextBytes_other _ _ _ _ (by omega) (by omega)
    rw [readPart_congr _ _ _ hbyte]
    exact hinv.2.2.1 j hj q hq
  · -- held pointers
    intro x hx
    exact hinv.2.2.2 x (Multiset.mem_of_mem_erase hx)

theorem blocksOf_eq (L : List (Nat × Nat × Nat)) (i : Nat)
    (e : Nat × Nat × Nat) (he : L.get? i = some e) :
    blocksOf L i = classBlocks e.1 e.2.1 e.2.2 := by
  simp only [blocksOf, he]

theorem pool_malloc_none_state (st : PoolState) (n : Nat)
    (h : (pool_malloc st n).1 = none) : (pool_malloc st n).2 = st := by
  by_cases hg : n = 0 ∨ st.sorted_block_size_arr 0 < n
  · rw [pool_malloc_guard st n hg]
  · cases hf : findPartition st.freelist_head_arr st.sorted_block_size_arr n
        st.block_size_count_var with
    | none => rw [pool_malloc_nofit st n hg hf]
    | some i =>
      obtain ⟨e1, _, _, _, _⟩ := pool_malloc_pop st n i hg hf
      rw [e1] at h
      exact absurd h (by simp)

theorem pool_malloc_count (st : PoolState) (n : Nat) :
    (pool_malloc st n).2.block_size_count_var = st.block_size_count_var := by
  by_cases hg : n = 0 ∨ st.sorted_block_size_arr 0 < n
  · rw [pool_malloc_guard st n hg]
  · cases hf : findPartition st.freelist_head_arr st.sorted_block_size_arr n
        st.block_size_count_var with
    | none => rw [pool_malloc_nofit st n hg hf]
    | some i => exact (pool_malloc_pop st n i hg hf).2.2.2.1

/-- The invariant holds right after a successful init, with every class's
free list being exactly its laid-out blocks and nothing held. -/
theorem PoolInv_init (sizes : List Nat) (st0 : PoolState)
    (L : List (Nat × Nat × Nat))
    (hinit : (pool_init sizes st0).1 = true)
    (hL : specLayout sizes.length (initSbs sizes st0) sizes.length 0 = some L) :
    layoutChained 0 L ∧ L.length = sizes.length ∧
    (pool_init sizes st0).2.block_size_count_var = sizes.length ∧
    PoolInv L sizes.length (pool_init sizes st0).2 0 (fun i => blocksOf L i) := by
  have hg : ¬(sizes.length = 0 ∨ MAX_BLOCK_SIZE_COUNT < sizes.length) := by
    intro hg
    unfold pool_init at hinit
    rw [if_pos hg] at hinit
    exact absurd hinit (by simp)
  rw [pool_init_flag sizes st0 hg] at hinit
  have hval : ∀ j, j < sizes.length →
      1 ≤ initSbs sizes st0 j ∧ initSbs sizes st0 j ≤ 65533 :=
    fun j hj => initLoop_true_sizes_valid _ _ _ _ _ _ hinit j (by omega) hj
  have hHS : HEAP_SIZE = 65536 := rfl
  obtain ⟨hlen, hch, _⟩ := specLayout_facts sizes.length (initSbs sizes st0)
    sizes.length 0 L (fun j _ hj => (hval j hj).1) (le_refl _) (by omega) hL
  have hcle : sizes.length ≤ 255 := by
    simp only [MAX_BLOCK_SIZE_COUNT] at hg
    omega
  have hrun : initLoop sizes.length (initSbs sizes st0) sizes.length
      st0.heap st0.freelist_head_arr 0 =
      ((initLoop sizes.length (initSbs sizes st0) sizes.length
        st0.heap st0.freelist_head_arr 0).1,
       (initLoop sizes.length (initSbs sizes st0) sizes.length
        st0.heap st0.freelist_head_arr 0).2.1,
       (initLoop sizes.length (initSbs sizes st0) sizes.length
        st0.heap st0.freelist_head_arr 0).2.2) := rfl
  obtain ⟨_, _, _, hclasses⟩ := initLoop_chains sizes.length (initSbs sizes st0)
    hcle sizes.length st0.heap st0.freelist_head_arr 0 L _ _ _
    (le_refl _) (by omega) (fun j _ hj => hval j hj) hL hrun
  refine ⟨hch, hlen, pool_init_count sizes st0 hg, ?_, ?_, ?_, ?_⟩
  · intro i hi
    have hie : ∃ e, L.get? i = some e := by
      rw [List.get?_eq_get (by omega)]
      exact ⟨_, rfl⟩
    obtain ⟨e, he⟩ := hie
    obtain ⟨hhead, _, hchain, _⟩ := hclasses i e he
    dsimp only
    rw [pool_init_heads sizes st0 hg, pool_init_heap sizes st0 hg]
    have hz : sizes.length - sizes.length + i = i := by omega
    rw [hz] at hhead
    rw [hhead, blocksOf_eq L i e he]
    exact hchain
  · intro i hi
    simp
  · intro i hi q hq
    have hie : ∃ e, L.get? i = some e := by
      rw [List.get?_eq_get (by omega)]
      exact ⟨_, rfl⟩
    obtain ⟨e, he⟩ := hie
    obtain ⟨_, _, _, hparts⟩ := hclasses i e he
    rw [pool_init_heap sizes st0 hg]
    have hz : sizes.length - sizes.length + i = i := by omega
    rw [hz] at hparts
    apply hparts
    rw [blocksOf_eq L i e he] at hq
    exact hq
  · intro p hp
    exact absurd hp (by simp)

/-- The invariant is maintained along every contract-respecting sequence of
pool_malloc / pool_free calls after a successful init. -/
theorem Reach_inv (sizes : List Nat) (st0 : PoolState)
    (L : List (Nat × Nat × Nat))
    (hinit : (pool_init sizes st0).1 = true)
    (hL : specLayout sizes.length (initSbs sizes st0) sizes.length 0 = some L) :
    ∀ st held, Reach (pool_init sizes st0).2 st held →
    st.block_size_count_var = sizes.length ∧
    ∃ fr, PoolInv L sizes.length st held fr := by
  obtain ⟨hch, hlen, hcnt0, hinv0⟩ := PoolInv_init sizes st0 L hinit hL
  intro st held hreach
  induction hreach with
  | refl => exact ⟨hcnt0, fun i => blocksOf L i, hinv0⟩
  | step_malloc_some hre hsome ih =>
    obtain ⟨hcnt, fr, hinv⟩ := ih
    obtain ⟨i, rest, hik, hfr, hmem, _, hinv2⟩ :=
      PoolInv_malloc L sizes.length _ _ fr _ hch hcnt hinv _ hsome
    refine ⟨?_, updL fr i rest, hinv2⟩
    rw [pool_malloc_count]
    exact hcnt
  | step_malloc_none hre hnone ih =>
    obtain ⟨hcnt, fr, hinv⟩ := ih
    rw [pool_malloc_none_state _ _ hnone]
    exact ⟨hcnt, fr, hinv⟩
  | step_free hre hp ih =>
    obtain ⟨hcnt, fr, hinv⟩ := ih
    obtain ⟨c, hc, hpc, hinv2⟩ := PoolInv_free L sizes.length _ _ fr _ hch hinv hp
    exact ⟨hcnt, updL fr c _, hinv2⟩

/-- Claim C1: block conservation per class.  After a successful
pool_init(sizes, count) whose layout data is L, in every state reachable by
contract-respecting pool_malloc / pool_free calls, for every class i the
list of payload offsets reachable from freelist_head_arr[i] through the
next_freelist_offset chain, together (as a multiset) with the held payload
offsets belonging to class i, equals exactly the blocks laid out for class
i at init, with no duplicates and no block of any other class on the
chain. -/
theorem C1_block_conservation (sizes : List Nat) (st0 : PoolState)
    (L : List (Nat × Nat × Nat))
    (hinit : (pool_init sizes st0).1 = true)
    (hL : specLayout sizes.length (initSbs sizes st0) sizes.length 0 = some L) :
    ∀ st held, Reach (pool_init sizes st0).2 st held →
    ∀ i, i < sizes.length → ∃ fr : List Nat,
      chainIs st.heap (st.freelist_head_arr i) fr ∧
      (fr : Multiset Nat) + held.filter (fun p => p ∈ blocksOf L i) =
        (blocksOf L i : Multiset Nat) ∧
      fr.Nodup ∧ ∀ q ∈ fr, q ∈ blocksOf L i := by
  intro st held hreach i hi
  obtain ⟨hch, _, _, _⟩ := PoolInv_init sizes st0 L hinit hL
  obtain ⟨hcnt, fr, hinv⟩ := Reach_inv sizes st0 L hinit hL st held hreach
  refine ⟨fr i, hinv.1 i hi, hinv.2.1 i hi, ?_, PoolInv_fr_subset L _ st held fr hinv i hi⟩
  have hle : (fr i : Multiset Nat) ≤ (blocksOf L i : Multiset Nat) :=
    Multiset.le_iff_exists_add.mpr ⟨_, (hinv.2.1 i hi).symm⟩
  have hnd : (blocksOf L i : Multiset Nat).Nodup := by
    rw [Multiset.coe_nodup]
    exact blocksOf_nodup L hch i
  have := Multiset.nodup_of_le hle hnd
  rwa [Multiset.coe_nodup] at this

/-- Witness for C1 at a concrete input: pool_init([16381]) lays out four
blocks of stride 16384; right after init nothing is held and the chain
carries exactly those blocks. -/
theorem C1_block_conservation_witness :
    ∃ fr : List Nat,
      chainIs (pool_init [16381] PoolState.initial).2.heap
        ((pool_init [16381] PoolState.initial).2.freelist_head_arr 0) fr ∧
      (fr : Multiset Nat) +
        (0 : Multiset Nat).filter (fun p => p ∈ blocksOf [(0, 16384, 4)] 0) =
        (blocksOf [(0, 16384, 4)] 0 : Multiset Nat) ∧
      fr.Nodup ∧ ∀ q ∈ fr, q ∈ blocksOf [(0, 16384, 4)] 0 :=
  C1_block_conservation [16381] PoolState.initial [(0, 16384, 4)]
    (by decide) (by decide) _ _ Reach.refl 0 (by decide)

theorem mallocRun_succ_none (st : PoolState) (n f : Nat)
    (h : (pool_malloc st n).1 = none) :
    (mallocRun st n (f + 1)).1 = 0 := by
  rcases hpm : pool_malloc st n with ⟨a, st2⟩
  rw [hpm] at h
  simp only at h
  subst h
  simp [mallocRun, hpm]

theorem mallocRun_succ_some (st : PoolState) (n f off : Nat)
    (h : (pool_malloc st n).1 = some off) :
    (mallocRun st n (f + 1)).1 = (mallocRun (pool_malloc st n).2 n f).1 + 1 := by
  rcases hpm : pool_malloc st n with ⟨a, st2⟩
  rw [hpm] at h
  simp only at h
  subst h
  simp [mallocRun, hpm]

/-- Draining a pool: under the invariant, repeated pool_malloc(n) calls
succeed exactly as many times as there are free blocks in classes whose
size fits n, then return NULL. -/
theorem drain_lemma (L : List (Nat × Nat × Nat)) (count : Nat)
    (hch : layoutChained 0 L) (n : Nat) (hn : 1 ≤ n) :
    ∀ fuel st held fr,
    st.block_size_count_var = count →
    (∀ i j, i ≤ j → j < count →
      st.sorted_block_size_arr j ≤ st.sorted_block_size_arr i) →
    PoolInv L count st held fr →
    (mallocRun st n fuel).1 =
      min fuel (Finset.sum (Finset.range count) (fun j =>
        if n ≤ st.sorted_block_size_arr j then (fr j).length else 0)) := by
  intro fuel
  induction fuel with
  | zero => intro st held fr _ _ _; simp [mallocRun]
  | succ f ih =>
    intro st held fr hcnt hs hinv
    by_cases hF : Finset.sum (Finset.range count) (fun j =>
        if n ≤ st.sorted_block_size_arr j then (fr j).length else 0) = 0
    · have hterm := (Finset.sum_eq_zero_iff).mp hF
      have hnone : (pool_malloc st n).1 = none := by
        by_cases hg : n = 0 ∨ st.sorted_block_size_arr 0 < n
        · rw [pool_malloc_guard st n hg]
        · have hfp : findPartition st.freelist_head_arr
              st.sorted_block_size_arr n st.block_size_count_var = none := by
            rw [findPartition_none_iff]
            intro j hj
            rw [hcnt] at hj
            by_cases hfit : n ≤ st.sorted_block_size_arr j
            · left
              have ht := hterm j (Finset.mem_range.mpr hj)
              rw [if_pos hfit] at ht
              have hfrj : fr j = [] := List.length_eq_zero.mp ht
              have := hinv.1 j hj
              rw [hfrj] at this
              exact this
            · right
              omega
          rw [pool_malloc_nofit st n hg hfp]
      rw [mallocRun_succ_none st n f hnone, hF]
      simp
    · obtain ⟨j, hjmem, hjne⟩ := Finset.exists_ne_zero_of_sum_ne_zero hF
      have hj : j < count := Finset.mem_range.mp hjmem
      have hfit : n ≤ st.sorted_block_size_arr j := by
        by_contra hc
        rw [if_neg hc] at hjne
        exact hjne rfl
      rw [if_pos hfit] at hjne
      obtain ⟨x, xs, hfrj⟩ : ∃ x xs, fr j = x :: xs := by
        cases hfrx : fr j with
        | nil => rw [hfrx] at hjne; simp at hjne
        | cons x xs => exact ⟨x, xs, rfl⟩
      have hchainj := hinv.1 j hj
      rw [hfrj] at hchainj
      obtain ⟨hhead, _⟩ := hchainj
      have hxblk : x ∈ blocksOf L j :=
        PoolInv_fr_subset L count st held fr hinv j hj x (by rw [hfrj]; simp)
      have hxb := blocks_bounds L hch j x hxblk
      have hg : ¬(n = 0 ∨ st.sorted_block_size_arr 0 < n) := by
        push_neg
        refine ⟨by omega, ?_⟩
        calc n ≤ st.sorted_block_size_arr j := hfit
        _ ≤ st.sorted_block_size_arr 0 := hs 0 j (by omega) hj
      have hsome : ∃ off, (pool_malloc st n).1 = some off := by
        cases hfp : findPartition st.freelist_head_arr
            st.sorted_block_size_arr n st.block_size_count_var with
        | none =>
          exfalso
          have := (findPartition_none_iff st.freelist_head_arr
            st.sorted_block_size_arr n st.block_size_count_var).mp hfp j
            (by omega)
          have hML : METADATA_LENGTH = 3 := rfl
          rcases this with h | h
          · rw [hhead] at h
            omega
          · omega
        | some i =>
          exact ⟨_, (pool_malloc_pop st n i hg hfp).1⟩
      obtain ⟨off, hoff⟩ := hsome
      obtain ⟨i, rest, hik, hfri, hmemi, hszi, hinv2⟩ :=
        PoolInv_malloc L count st held fr n hch hcnt hinv off hoff
      have hsbs2 : (pool_malloc st n).2.sorted_block_size_arr =
          st.sorted_block_size_arr := by
        by_cases hg2 : n = 0 ∨ st.sorted_block_size_arr 0 < n
        · rw [pool_malloc_guard st n hg2]
        · cases hfp : findPartition st.freelist_head_arr
              st.sorted_block_size_arr n st.block_size_count_var with
          | none => rw [pool_malloc_nofit st n hg2 hfp]
          | some i2 => exact (pool_malloc_pop st n i2 hg2 hfp).2.2.1
      have hrec := ih (pool_malloc st n).2 (off ::ₘ held) (updL fr i rest)
        (by rw [pool_malloc_count, hcnt])
        (by rw [hsbs2]; exact hs) hinv2
      rw [hsbs2] at hrec
      rw [mallocRun_succ_some st n f off hoff, hrec]
      -- arithmetic: the fitting sum dropped by exactly one at class i
      have hsum : Finset.sum (Finset.range count) (fun j2 =>
          if n ≤ st.sorted_block_size_arr j2 then (updL fr i rest j2).length
          else 0) + 1 =
          Finset.sum (Finset.range count) (fun j2 =>
            if n ≤ st.sorted_block_size_arr j2 then (fr j2).length else 0) := by
        have himem : i ∈ Finset.range count := Finset.mem_range.mpr hik
        rw [← Finset.sum_erase_add _ _ himem, ← Finset.sum_erase_add _ _ himem]
        have hcong : Finset.sum ((Finset.range count).erase i) (fun j2 =>
            if n ≤ st.sorted_block_size_arr j2 then (updL fr i rest j2).length
            else 0) =
            Finset.sum ((Finset.range count).erase i) (fun j2 =>
              if n ≤ st.sorted_block_size_arr j2 then (fr j2).length else 0) := by
          apply Finset.sum_congr rfl
          intro x2 hx2
          have hx2i : x2 ≠ i := Finset.ne_of_mem_erase hx2
          have : updL fr i rest x2 = fr x2 := by simp [updL, hx2i]
          rw [this]
        rw [hcong]
        have hupd : updL fr i rest i = rest := by simp [updL]
        rw [hupd, if_pos hszi, if_pos hszi, hfri]
        simp [Nat.add_assoc]
      omega

theorem classBlocks_length (T : Nat) :
    ∀ n start, (classBlocks start T n).length = n := by
  intro n
  induction n with
  | zero => intro start; rfl
  | succ m ih =>
    intro start
    simp only [classBlocks, List.length_cons, ih]

theorem initSbs_antitone (sizes : List Nat) (st0 : PoolState)
    (h : (pool_init sizes st0).1 = true) :
    ∀ i j, i ≤ j → j < sizes.length →
      initSbs sizes st0 j ≤ initSbs sizes st0 i := by
  have hg : ¬(sizes.length = 0 ∨ MAX_BLOCK_SIZE_COUNT < sizes.length) := by
    intro hg
    unfold pool_init at h
    rw [if_pos hg] at h
    exact absurd h (by simp)
  have hlen := sortDesc_length sizes
  have hvalid : ∀ j, j < sizes.length →
      1 ≤ initSbs sizes st0 j ∧ initSbs sizes st0 j ≤ 65533 := by
    intro j hj
    rw [pool_init_flag sizes st0 hg] at h
    exact initLoop_true_sizes_valid _ _ _ _ _ _ h j (by omega) hj
  intro i j hij hj
  rcases Nat.eq_or_lt_of_le hij with rfl | hlt
  · exact le_refl _
  · have hi : i < sizes.length := by omega
    have hsrt := sortDesc_sorted sizes
    have hr := hsrt.rel_get_of_lt (a := ⟨i, by omega⟩) (b := ⟨j, by omega⟩)
      (by simpa using hlt)
    simp only [List.get_eq_getElem] at hr
    rw [initSbs_lt sizes st0 i hi, initSbs_lt sizes st0 j hj,
      List.getD_eq_getElem _ 0 (by omega : i < (sortDesc sizes).length),
      List.getD_eq_getElem _ 0 (by omega : j < (sortDesc sizes).length)]
    have hvi := hvalid i hi
    have hvj := hvalid j hj
    rw [initSbs_lt sizes st0 i hi,
      List.getD_eq_getElem _ 0 (by omega : i < (sortDesc sizes).length)] at hvi
    rw [initSbs_lt sizes st0 j hj,
      List.getD_eq_getElem _ 0 (by omega : j < (sortDesc sizes).length)] at hvj
    exact (qsort_cmp_le_iff _ _ hvi.2 hvj.2).mp hr

/-- Counterexample to claim C5 as stated: with pool_init([509, 509], 2)
the layout gives each of the two classes exactly 64 blocks, yet from the
fresh init 128 successive pool_malloc(509) calls succeed before the next
one returns NULL (allocation spills into the other class of equal size),
so the count differs from the 64 blocks laid out for the requested class
0. -/
theorem C5_exhaustion_counterexample :
    specLayout ([509, 509] : List Nat).length
      (initSbs [509, 509] PoolState.initial) ([509, 509] : List Nat).length 0 =
      some [(0, 512, 64), (32768, 512, 64)] ∧
    (pool_init [509, 509] PoolState.initial).2.sorted_block_size_arr 0 = 509 ∧
    (mallocRun (pool_init [509, 509] PoolState.initial).2 509 129).1 = 128 ∧
    (128 : Nat) ≠ 64 := by
  have hinit : (pool_init [509, 509] PoolState.initial).1 = true := by decide
  have hL : specLayout ([509, 509] : List Nat).length
      (initSbs [509, 509] PoolState.initial) ([509, 509] : List Nat).length 0 =
      some [(0, 512, 64), (32768, 512, 64)] := by decide
  refine ⟨hL, by decide, ?_, by decide⟩
  have hg : ¬(([509, 509] : List Nat).length = 0 ∨
      MAX_BLOCK_SIZE_COUNT < ([509, 509] : List Nat).length) := by decide
  obtain ⟨hch, hlen, hcnt, hinv⟩ :=
    PoolInv_init [509, 509] PoolState.initial _ hinit hL
  have hs : ∀ i j, i ≤ j → j < ([509, 509] : List Nat).length →
      (pool_init [509, 509] PoolState.initial).2.sorted_block_size_arr j ≤
      (pool_init [509, 509] PoolState.initial).2.sorted_block_size_arr i := by
    intro i j hij hj
    rw [pool_init_sbs _ _ hg]
    exact initSbs_antitone [509, 509] PoolState.initial hinit i j hij hj
  have hd := drain_lemma _ ([509, 509] : List Nat).length hch 509 (by omega)
    129 (pool_init [509, 509] PoolState.initial).2 0 (fun i => blocksOf _ i)
    hcnt hs hinv
  rw [hd]
  decide

/-- Claim C5 (amended): for every class i, starting from a fresh
successful pool_init, the number of successful pool_malloc(class_size[i])
calls before the next such call returns NULL equals the total number of
blocks laid out at init for all classes j whose block size is at least
class_size[i] (allocation spills across equal or larger fitting classes);
in the single-class instance, after pool_init([1], 1), exactly 16384
successive pool_malloc(1) calls return non-NULL and the 16385th returns
NULL. -/
theorem C5_exhaustion (sizes : List Nat) (st0 : PoolState)
    (L : List (Nat × Nat × Nat))
    (hinit : (pool_init sizes st0).1 = true)
    (hL : specLayout sizes.length (initSbs sizes st0) sizes.length 0 = some L) :
    (∀ i, i < sizes.length → ∀ fuel,
      (mallocRun (pool_init sizes st0).2
        ((pool_init sizes st0).2.sorted_block_size_arr i) fuel).1 =
      min fuel (Finset.sum (Finset.range sizes.length) (fun j =>
        if (pool_init sizes st0).2.sorted_block_size_arr i ≤
            (pool_init sizes st0).2.sorted_block_size_arr j
        then (blocksOf L j).length else 0))) ∧
    (mallocRun (pool_init [1] PoolState.initial).2 1 16385).1 = 16384 ∧
    (mallocRun (pool_init [1] PoolState.initial).2 1 16384).1 = 16384 := by
  have hgen : ∀ sizes2 : List Nat, ∀ st2 : PoolState,
      ∀ L2 : List (Nat × Nat × Nat),
      (pool_init sizes2 st2).1 = true →
      specLayout sizes2.length (initSbs sizes2 st2) sizes2.length 0 = some L2 →
      ∀ i, i < sizes2.length → ∀ fuel,
      (mallocRun (pool_init sizes2 st2).2
        ((pool_init sizes2 st2).2.sorted_block_size_arr i) fuel).1 =
      min fuel (Finset.sum (Finset.range sizes2.length) (fun j =>
        if (pool_init sizes2 st2).2.sorted_block_size_arr i ≤
            (pool_init sizes2 st2).2.sorted_block_size_arr j
        then (blocksOf L2 j).length else 0)) := by
    intro sizes2 st2 L2 hinit2 hL2 i hi fuel
    have hg : ¬(sizes2.length = 0 ∨ MAX_BLOCK_SIZE_COUNT < sizes2.length) := by
      intro hg
      unfold pool_init at hinit2
      rw [if_pos hg] at hinit2
      exact absurd hinit2 (by simp)
    obtain ⟨hch, hlen, hcnt, hinv⟩ := PoolInv_init sizes2 st2 L2 hinit2 hL2
    have hs : ∀ a b, a ≤ b → b < sizes2.length →
        (pool_init sizes2 st2).2.sorted_block_size_arr b ≤
        (pool_init sizes2 st2).2.sorted_block_size_arr a := by
      intro a b hab hb
      rw [pool_init_sbs _ _ hg]
      exact initSbs_antitone sizes2 st2 hinit2 a b hab hb
    have hn : 1 ≤ (pool_init sizes2 st2).2.sorted_block_size_arr i := by
      rw [pool_init_sbs _ _ hg]
      rw [pool_init_flag _ _ hg] at hinit2
      exact (initLoop_true_sizes_valid _ _ _ _ _ _ hinit2 i (by omega) hi).1
    exact drain_lemma L2 sizes2.length hch _ hn fuel
      (pool_init sizes2 st2).2 0 (fun j => blocksOf L2 j) hcnt hs hinv
  refine ⟨hgen sizes st0 L hinit hL, ?_, ?_⟩
  · have h1 := hgen [1] PoolState.initial [(0, 4, 16384)] (by decide) (by decide)
      0 (by decide) 16385
    have hsb : (pool_init [1] PoolState.initial).2.sorted_block_size_arr 0 =
        1 := by decide
    rw [hsb] at h1
    rw [h1]
    have hb : (blocksOf [(0, 4, 16384)] 0).length = 16384 := by
      rw [blocksOf_eq [(0, 4, 16384)] 0 (0, 4, 16384) rfl]
      exact classBlocks_length _ _ _
    have h2 : ([1] : List Nat).length = 1 := rfl
    rw [h2, Finset.sum_range_one, hsb, if_pos (by omega), hb]
    omega
  · have h1 := hgen [1] PoolState.initial [(0, 4, 16384)] (by decide) (by decide)
      0 (by decide) 16384
    have hsb : (pool_init [1] PoolState.initial).2.sorted_block_size_arr 0 =
        1 := by decide
    rw [hsb] at h1
    rw [h1]
    have hb : (blocksOf [(0, 4, 16384)] 0).length = 16384 := by
      rw [blocksOf_eq [(0, 4, 16384)] 0 (0, 4, 16384) rfl]
      exact classBlocks_length _ _ _
    have h2 : ([1] : List Nat).length = 1 := rfl
    rw [h2, Finset.sum_range_one, hsb, if_pos (by omega), hb]
    omega

/-- Witness for C5 (amended) at a concrete input: pool_init([16381]) lays
out 4 blocks; with fuel 2 the drain count is min 2 4 = 2. -/
theorem C5_exhaustion_witness :
    (mallocRun (pool_init [16381] PoolState.initial).2
      ((pool_init [16381] PoolState.initial).2.sorted_block_size_arr 0) 2).1 =
      2 := by
  have h := (C5_exhaustion [16381] PoolState.initial [(0, 16384, 4)]
    (by decide) (by decide)).1 0 (by decide) 2
  rw [h]
  have hsb : (pool_init [16381] PoolState.initial).2.sorted_block_size_arr 0 =
      16381 := by decide
  have hb : (blocksOf [(0, 16384, 4)] 0).length = 4 := by
    rw [blocksOf_eq [(0, 16384, 4)] 0 (0, 16384, 4) rfl]
    exact classBlocks_length _ _ _
  have h2 : ([16381] : List Nat).length = 1 := rfl
  rw [h2, Finset.sum_range_one, hsb, if_pos (by omega), hb]
  omega

theorem specLayout_P (count : Nat) (sbs : Nat → Nat) :
    ∀ left cursor L, specLayout count sbs left cursor = some L →
    ∀ t e, L.get? t = some e →
      e.2.2 * e.2.1 =
        max e.2.1 ((HEAP_SIZE - e.1) / (left - t) -
          (HEAP_SIZE - e.1) / (left - t) % e.2.1) ∧
      (t = 0 → e.1 = cursor) ∧
      ∀ e2, L.get? (t + 1) = some e2 → e2.1 = e.1 + e.2.2 * e.2.1 := by
  intro left
  induction left with
  | zero =>
    intro cursor L hL t e het
    simp only [specLayout, Option.some.injEq] at hL
    subst hL
    simp at het
  | succ m ih =>
    intro cursor L hL t e het
    simp only [specLayout] at hL
    split at hL
    · exact absurd hL (by simp)
    · rename_i hrem
      split at hL
      · exact absurd hL (by simp)
      · rename_i l hrec
        injection hL with hL
        subst hL
        set T := sbs (count - (m + 1)) + METADATA_LENGTH with hT
        set E := (HEAP_SIZE - cursor) / (m + 1) with hE
        set P := max T (E - E % T) with hP
        have hTpos : 0 < T := by
          have : METADATA_LENGTH = 3 := rfl
          omega
        have hdvd : T ∣ P := by
          have hsub : E - E % T = T * (E / T) := by
            have := Nat.mod_add_div E T
            omega
          rcases le_total T (E - E % T) with hmx | hmx
          · rw [hP, max_eq_right hmx, hsub]
            exact Dvd.intro _ rfl
          · rw [hP, max_eq_left hmx]
        have hPmul : P / T * T = P := Nat.div_mul_cancel hdvd
        cases t with
        | zero =>
          rw [List.get?_cons_zero] at het
          injection het with het
          subst het
          dsimp only
          refine ⟨?_, fun _ => rfl, ?_⟩
          · rw [hPmul]
            have hms : m + 1 - 0 = m + 1 := rfl
            rw [hms]
          · intro e2 he2
            rw [List.get?_cons_succ] at he2
            have h0 := (ih (cursor + P) l hrec 0 e2 he2).2.1 rfl
            rw [h0, hPmul]
        | succ u =>
          rw [List.get?_cons_succ] at het
          have := ih (cursor + P) l hrec u e het
          refine ⟨?_, fun h => by omega, ?_⟩
          · have hms : m + 1 - (u + 1) = m - u := by omega
            rw [hms]
            exact this.1
          · intro e2 he2
            rw [List.get?_cons_succ] at he2
            exact this.2.2 e2 he2

/-- Claim C4: during a successful pool_init, each class i (processed in
descending size order) with size s and stride T = s + 3 receives exactly
P = max(T, E - E mod T) bytes starting at the current cursor, where
E = remaining / (N - i) with remaining the heap bytes from the cursor on;
its free-list head is set to cursor + 3 and its block headers are threaded
at stride T.  Concretely, after pool_init([53360, 1], 2), if the first
pool_malloc(2) returns payload offset H then the next three pool_malloc(1)
calls return H + 53363, H + 53367 and H + 53371 in that order. -/
theorem C4_layout_arithmetic :
    (∀ sizes st0 L, (pool_init sizes st0).1 = true →
      specLayout sizes.length (initSbs sizes st0) sizes.length 0 = some L →
      ∀ i, i < sizes.length → ∃ e, L.get? i = some e ∧
        e.2.1 = (pool_init sizes st0).2.sorted_block_size_arr i +
          METADATA_LENGTH ∧
        e.2.2 * e.2.1 = max e.2.1
          ((HEAP_SIZE - e.1) / (sizes.length - i) -
            (HEAP_SIZE - e.1) / (sizes.length - i) % e.2.1) ∧
        (i = 0 → e.1 = 0) ∧
        (∀ e2, L.get? (i + 1) = some e2 → e2.1 = e.1 + e.2.2 * e.2.1) ∧
        (pool_init sizes st0).2.freelist_head_arr i =
          e.1 + METADATA_LENGTH ∧
        chainIs (pool_init sizes st0).2.heap (e.1 + METADATA_LENGTH)
          (classBlocks e.1 e.2.1 e.2.2)) ∧
    ∀ H, (pool_malloc (pool_init [53360, 1] PoolState.initial).2 2).1 =
        some H →
      (pool_malloc
        (pool_malloc (pool_init [53360, 1] PoolState.initial).2 2).2 1).1 =
        some (H + 53363) ∧
      (pool_malloc (pool_malloc
        (pool_malloc (pool_init [53360, 1] PoolState.initial).2 2).2 1).2
        1).1 = some (H + 53367) ∧
      (pool_malloc (pool_malloc (pool_malloc
        (pool_malloc (pool_init [53360, 1] PoolState.initial).2 2).2 1).2
        1).2 1).1 = some (H + 53371) := by
  constructor
  · intro sizes st0 L hinit hL i hi
    have hg : ¬(sizes.length = 0 ∨ MAX_BLOCK_SIZE_COUNT < sizes.length) := by
      intro hg
      unfold pool_init at hinit
      rw [if_pos hg] at hinit
      exact absurd hinit (by simp)
    have hflag := hinit
    rw [pool_init_flag sizes st0 hg] at hflag
    have hval : ∀ j, j < sizes.length →
        1 ≤ initSbs sizes st0 j ∧ initSbs sizes st0 j ≤ 65533 :=
      fun j hj => initLoop_true_sizes_valid _ _ _ _ _ _ hflag j (by omega) hj
    obtain ⟨hlen, hch, hstr⟩ := specLayout_facts sizes.length
      (initSbs sizes st0) sizes.length 0 L (fun j _ hj => (hval j hj).1)
      (le_refl _) (by omega) hL
    have hie : ∃ e, L.get? i = some e := by
      rw [List.get?_eq_get (by omega)]
      exact ⟨_, rfl⟩
    obtain ⟨e, he⟩ := hie
    obtain ⟨e', he', hstre⟩ := hstr i hi
    rw [he] at he'
    injection he' with he'
    subst he'
    have hP := specLayout_P sizes.length (initSbs sizes st0)
      sizes.length 0 L hL i e he
    have hcle : sizes.length ≤ 255 := by
      simp only [MAX_BLOCK_SIZE_COUNT] at hg
      omega
    have hrun : initLoop sizes.length (initSbs sizes st0) sizes.length
        st0.heap st0.freelist_head_arr 0 =
        ((initLoop sizes.length (initSbs sizes st0) sizes.length
          st0.heap st0.freelist_head_arr 0).1,
         (initLoop sizes.length (initSbs sizes st0) sizes.length
          st0.heap st0.freelist_head_arr 0).2.1,
         (initLoop sizes.length (initSbs sizes st0) sizes.length
          st0.heap st0.freelist_head_arr 0).2.2) := rfl
    obtain ⟨_, _, _, hclasses⟩ := initLoop_chains sizes.length
      (initSbs sizes st0) hcle sizes.length st0.heap st0.freelist_head_arr 0
      L _ _ _ (le_refl _) (by omega) (fun j _ hj => hval j hj) hL hrun
    obtain ⟨hhead, _, hchain, _⟩ := hclasses i e he
    have hz : sizes.length - sizes.length + i = i := by omega
    rw [hz] at hhead
    refine ⟨e, he, ?_, hP.1, hP.2.1, hP.2.2, ?_, ?_⟩
    · rw [hstre, pool_init_sbs sizes st0 hg]
      have : sizes.length - sizes.length + i = i := by omega
      rw [this]
    · rw [pool_init_heads sizes st0 hg]
      exact hhead
    · rw [pool_init_heap sizes st0 hg]
      exact hchain
  · -- the concrete scenario
    have hinit : (pool_init [53360, 1] PoolState.initial).1 = true := by decide
    have hL : specLayout ([53360, 1] : List Nat).length
        (initSbs [53360, 1] PoolState.initial)
        ([53360, 1] : List Nat).length 0 =
        some [(0, 53363, 1), (53363, 4, 3043)] := by decide
    have hsb0 : (pool_init [53360, 1] PoolState.initial).2.sorted_block_size_arr
        0 = 53360 := by decide
    have hsb1 : (pool_init [53360, 1] PoolState.initial).2.sorted_block_size_arr
        1 = 1 := by decide
    have hcv : (pool_init [53360, 1] PoolState.initial).2.block_size_count_var
        = 2 := by decide
    obtain ⟨hch, hlen, hcnt, hinv⟩ :=
      PoolInv_init [53360, 1] PoolState.initial _ hinit hL
    set st1 := (pool_init [53360, 1] PoolState.initial).2 with hst1
    clear_value st1
    -- class 0 chain: the single block [3]
    have hc0 := hinv.1 0 (by omega)
    dsimp only at hc0
    rw [blocksOf_eq [(0, 53363, 1), (53363, 4, 3043)] 0 (0, 53363, 1) rfl]
      at hc0
    have hcl0 : classBlocks 0 53363 1 = [3] := rfl
    rw [hcl0] at hc0
    obtain ⟨hh0, hr0⟩ := hc0
    have hread0 : readNext st1.heap 0 = 0 := hr0
    -- class 1 chain: first three blocks
    have hc1 := hinv.1 1 (by omega)
    dsimp only at hc1
    rw [blocksOf_eq [(0, 53363, 1), (53363, 4, 3043)] 1 (53363, 4, 3043) rfl]
      at hc1
    have hcl1 : classBlocks 53363 4 3043 =
        53366 :: 53370 :: 53374 :: classBlocks 53375 4 3040 := rfl
    rw [hcl1] at hc1
    obtain ⟨hh1, hc1b⟩ := hc1
    obtain ⟨hrA, hc1c⟩ := hc1b
    obtain ⟨hrB, _⟩ := hc1c
    -- step 1: pool_malloc 2 pops class 0's head 3
    have hguard1 : ¬((2 : Nat) = 0 ∨ st1.sorted_block_size_arr 0 < 2) := by
      rw [hsb0]
      omega
    have hfp1 : findPartition st1.freelist_head_arr st1.sorted_block_size_arr
        2 st1.block_size_count_var = some 0 := by
      rw [hcv]
      simp [findPartition, hh0, hh1, hsb0, hsb1]
    obtain ⟨p1, p1heap, p1sbs, p1cnt, p1heads⟩ :=
      pool_malloc_pop st1 2 0 hguard1 hfp1
    intro H hH
    rw [p1, hh0] at hH
    injection hH with hH
    subst hH
    -- state after step 1
    have hh2_1 : (pool_malloc st1 2).2.freelist_head_arr 1 = 53366 := by
      rw [p1heads, updFn_other _ _ _ _ (by omega)]
      exact hh1
    -- step 2: pool_malloc 1 pops class 1's head 53366
    have hguard2 : ¬((1 : Nat) = 0 ∨
        (pool_malloc st1 2).2.sorted_block_size_arr 0 < 1) := by
      rw [p1sbs, hsb0]
      omega
    have hfp2 : findPartition (pool_malloc st1 2).2.freelist_head_arr
        (pool_malloc st1 2).2.sorted_block_size_arr 1
        (pool_malloc st1 2).2.block_size_count_var = some 1 := by
      rw [p1cnt, hcv]
      simp [findPartition, hh2_1, p1sbs, hsb1]
    obtain ⟨p2, p2heap, p2sbs, p2cnt, p2heads⟩ :=
      pool_malloc_pop (pool_malloc st1 2).2 1 1 hguard2 hfp2
    have hret2 : (pool_malloc (pool_malloc st1 2).2 1).1 = some (3 + 53363) := by
      rw [p2, hh2_1]
    have hh3_1 : (pool_malloc (pool_malloc st1 2).2 1).2.freelist_head_arr 1 =
        53370 := by
      rw [p2heads, updFn_self, hh2_1, p1heap]
      exact hrA
    -- step 3
    have hguard3 : ¬((1 : Nat) = 0 ∨
        (pool_malloc (pool_malloc st1 2).2 1).2.sorted_block_size_arr 0 < 1) := by
      rw [p2sbs, p1sbs, hsb0]
      omega
    have hfp3 : findPartition
        (pool_malloc (pool_malloc st1 2).2 1).2.freelist_head_arr
        (pool_malloc (pool_malloc st1 2).2 1).2.sorted_block_size_arr 1
        (pool_malloc (pool_malloc st1 2).2 1).2.block_size_count_var =
        some 1 := by
      rw [p2cnt, p1cnt, hcv]
      simp [findPartition, hh3_1, p2sbs, p1sbs, hsb1]
    obtain ⟨p3, p3heap, p3sbs, p3cnt, p3heads⟩ :=
      pool_malloc_pop (pool_malloc (pool_malloc st1 2).2 1).2 1 1
        hguard3 hfp3
    have hret3 : (pool_malloc (pool_malloc (pool_malloc st1 2).2 1).2 1).1 =
        some (3 + 53367) := by
      rw [p3, hh3_1]
    have hh4_1 : (pool_malloc (pool_malloc (pool_malloc st1 2).2 1).2
        1).2.freelist_head_arr 1 = 53374 := by
      rw [p3heads, updFn_self, hh3_1, p2heap, p1heap]
      exact hrB
    -- step 4
    have hguard4 : ¬((1 : Nat) = 0 ∨
        (pool_malloc (pool_malloc (pool_malloc st1 2).2 1).2
          1).2.sorted_block_size_arr 0 < 1) := by
      rw [p3sbs, p2sbs, p1sbs, hsb0]
      omega
    have hfp4 : findPartition
        (pool_malloc (pool_malloc (pool_malloc st1 2).2 1).2
          1).2.freelist_head_arr
        (pool_malloc (pool_malloc (pool_malloc st1 2).2 1).2
          1).2.sorted_block_size_arr 1
        (pool_malloc (pool_malloc (pool_malloc st1 2).2 1).2
          1).2.block_size_count_var = some 1 := by
      rw [p3cnt, p2cnt, p1cnt, hcv]
      simp [findPartition, hh4_1, p3sbs, p2sbs, p1sbs, hsb1]
    obtain ⟨p4, _, _, _, _⟩ :=
      pool_malloc_pop (pool_malloc (pool_malloc (pool_malloc st1 2).2 1).2
        1).2 1 1 hguard4 hfp4
    have hret4 : (pool_malloc (pool_malloc (pool_malloc
        (pool_malloc st1 2).2 1).2 1).2 1).1 = some (3 + 53371) := by
      rw [p4, hh4_1]
    exact ⟨hret2, hret3, hret4⟩

/-- Witness for C4 at a concrete input: the first pool_malloc(2) after
pool_init([53360, 1]) returns payload offset 3, and the following
pool_malloc(1) returns 3 + 53363. -/
theorem C4_layout_arithmetic_witness :
    (pool_malloc (pool_malloc (pool_init [53360, 1] PoolState.initial).2
      2).2 1).1 = some (3 + 53363) :=
  (C4_layout_arithmetic.2 3 (by decide)).1
